import Mathlib

/-!
Verification of the mochila in-memory typed record store
(src/lib/mochila.js) against its specification.

The development shallowly embeds the library's core: JavaScript values
are modelled by the inductive type `JVal`, records (models) are
own-property lists, collections are lists of records, and each library
function is translated into a pure Lean function over this model, with
in-place mutation turned into explicit state passing and thrown errors
into `Except`.  Line numbers in comments refer to src/lib/mochila.js.
-/

namespace Mochila

/-- The JavaScript values relevant to the library: primitives (numbers,
strings, booleans, `null`), functions (identified opaquely by a token
standing for their reference), arrays, and plain objects, the latter as
insertion-ordered own-property lists.  Numbers are modelled as integers:
every identifier and field value exercised by the specification is
integral, and JS `<` on same-typed integral numbers is exactly integer
comparison. -/
inductive JVal : Type where
  | num (n : Int)
  | str (s : String)
  | bool (b : Bool)
  | null
  | fn (token : Nat)
  | arr (elems : List JVal)
  | obj (fields : List (String × JVal))

/-- Results of the JS `typeof` operator. -/
inductive JsTy : Type where
  | undefinedTy
  | numberTy
  | stringTy
  | booleanTy
  | objectTy
  | functionTy
  deriving DecidableEq, Repr

/-- `typeof v`.  Note `typeof null === 'object'`. -/
def typeofJs : JVal → JsTy
  | .num _ => .numberTy
  | .str _ => .stringTy
  | .bool _ => .booleanTy
  | .null => .objectTy
  | .fn _ => .functionTy
  | .arr _ => .objectTy
  | .obj _ => .objectTy

/-- `typeof` of a possibly-undefined value (`none` plays `undefined`). -/
def typeofOpt : Option JVal → JsTy
  | none => .undefinedTy
  | some v => typeofJs v

/-- The JS `<` operator on the comparisons the library can reach: two
numbers compare as integers and two strings compare lexicographically by
code points (JS compares UTF-16 code units; these agree on all
identifiers in scope here).  Every other combination is `false`: each
search is guarded by a `typeof` equality check and all order-sensitive
theorems below assume homogeneous number- or string-typed identifiers,
so the remaining combinations (which in JS go through implicit numeric
coercion) are never exercised; `false` agrees with JS whenever that
coercion produces NaN (e.g. comparing against `undefined`, `null`, or a
non-numeric string). -/
def jsLt : JVal → JVal → Bool
  | .num a, .num b => decide (a < b)
  | .str a, .str b => decide (a.data < b.data)
  | _, _ => false

/-- `jsLt` lifted to possibly-undefined operands (`x < undefined` and
`undefined < x` are both false in JS: NaN comparison). -/
def jsLtOpt : Option JVal → Option JVal → Bool
  | some a, some b => jsLt a b
  | _, _ => false

mutual
/-- Structural boolean equality on `JVal` (used in statements in place
of a derived decidable equality, which Lean cannot derive for this
nested inductive type). -/
def jbeq : JVal → JVal → Bool
  | .num a, .num b => a == b
  | .str a, .str b => a == b
  | .bool a, .bool b => a == b
  | .null, .null => true
  | .fn a, .fn b => a == b
  | .arr a, .arr b => jbeqList a b
  | .obj a, .obj b => jbeqFields a b
  | _, _ => false

def jbeqList : List JVal → List JVal → Bool
  | [], [] => true
  | a :: as', b :: bs' => jbeq a b && jbeqList as' bs'
  | _, _ => false

def jbeqFields : List (String × JVal) → List (String × JVal) → Bool
  | [], [] => true
  | (k, v) :: as', (k2, v2) :: bs' => k == k2 && jbeq v v2 && jbeqFields as' bs'
  | _, _ => false
end

/-- JS strict equality `===` for the comparisons reachable in `filter`
and `find` callbacks: primitives compare by value, `undefined` equals
only `undefined`, and functions compare by reference (token).
Comparisons between distinct container references are `false` in JS; a
pure model cannot observe reference identity, so container operands are
modelled as never strictly equal (no claim exercises them). -/
def jsStrictEqOpt : Option JVal → Option JVal → Bool
  | some (.num a), some (.num b) => a == b
  | some (.str a), some (.str b) => a == b
  | some (.bool a), some (.bool b) => a == b
  | some .null, some .null => true
  | some (.fn a), some (.fn b) => a == b
  | none, none => true
  | _, _ => false

/-- Look up an own property of an object's field list (JS `o[key]` for
an own property; `none` plays `undefined`). -/
def getProp : List (String × JVal) → String → Option JVal
  | [], _ => none
  | p :: rest, key => if p.1 = key then some p.2 else getProp rest key

/-- JS property assignment `o[key] = v`: an existing own property is
updated in place, keeping its position in insertion order; otherwise the
property is appended at the end. -/
def setProp : List (String × JVal) → String → JVal → List (String × JVal)
  | [], key, v => [(key, v)]
  | p :: rest, key, v =>
    if p.1 = key then (key, v) :: rest else p :: setProp rest key v

mutual
/-- The inner `deepCopy` helper of `_mergeObject` (lines 704-724).
Arrays are copied element-wise and objects field-wise, recursively.  The
`typeof source === 'object'` branch also receives `null`
(`typeof null === 'object'`, and `for..in` over `null` performs zero
iterations), so `null` is copied as an empty object.  All other values
(numbers, strings, booleans, functions) are returned as-is. -/
def deepCopy : JVal → JVal
  | .arr l => .arr (deepCopyList l)
  | .obj fs => .obj (deepCopyFields fs)
  | .null => .obj []
  | v => v

def deepCopyList : List JVal → List JVal
  | [] => []
  | v :: vs => deepCopy v :: deepCopyList vs

def deepCopyFields : List (String × JVal) → List (String × JVal)
  | [] => []
  | (k, v) :: fs => (k, deepCopy v) :: deepCopyFields fs
end

/-- The errors the library throws, plus `jsTypeError` for a TypeError
raised by the JS runtime itself (e.g. a property access on `undefined`),
which is not one of the library's own errors. -/
inductive MErr : Type where
  | duplicateCollection
  | unknownCollection
  | factoryExists
  | invalidFactory
  | notAnObject
  | typeMismatch
  | undefinedValue
  | ambiguousRemoval
  | jsTypeError
  deriving DecidableEq, Repr

/-- The property-copying loop of `_mergeObject` (lines 740-744) for one
object source: each own property of the source is deep-copied into the
target, in the source's insertion order. -/
def mergeFields (target : List (String × JVal)) (src : List (String × JVal)) :
    List (String × JVal) :=
  src.foldl (fun acc p => setProp acc p.1 (deepCopy p.2)) target

/-- `_mergeObject(obj, ...objs)` (lines 703-746).  A target that is not
`typeof 'object'`, or that is an array, is returned unchanged (line 728).
A `null` target passes that guard (`typeof null === 'object'`), so the
property loop runs against `null` and the first property assignment
raises a TypeError; a source that is not an object, or is an array, is
skipped (line 735), and a `null` source is skipped harmlessly because
`for..in` over `null` performs no iterations. -/
def mergeObject (target : JVal) (objs : List JVal) : Except MErr JVal :=
  match target with
  | .num _ | .str _ | .bool _ | .fn _ => .ok target
  | .arr l => .ok (.arr l)
  | .null =>
      if objs.any (fun s => match s with | .obj (_ :: _) => true | _ => false) then
        .error .jsTypeError
      else
        .ok .null
  | .obj fs =>
      .ok (.obj (objs.foldl (fun acc s =>
        match s with
        | .obj sf => mergeFields acc sf
        | _ => acc) fs))

/-- A record (model): a JS object's own-property list. -/
abbrev Rec := List (String × JVal)

/-- A collection: the ordered array of records stored under one name. -/
abbrev Collection := List Rec

/-- `item.id`. -/
def idOf (r : Rec) : Option JVal := getProp r "id"

/-- Well-formedness every JS object enjoys by construction: own-property
names are distinct. -/
def NodupKeys (r : Rec) : Prop := (r.map Prod.fst).Nodup

/-- The `key` property of `sortedArray[i]` (out-of-range indices give
`undefined`; the loops below only index in range). -/
def keyAt (sortedArray : Collection) (key : String) (i : Nat) : Option JVal :=
  match sortedArray[i]? with
  | some r => getProp r key
  | none => none

/-- The binary-search loop of `_getInsertIndex` (lines 812-828),
translated with `e1 = end + 1` so both bounds stay natural numbers
(`end` reaches `-1` exactly when `e1 = 0`), and with a fuel argument
bounding the iteration count.  Each iteration shrinks `e1 - beg`, so any
fuel of at least `e1 - beg` (callers pass the array length) runs the
loop to completion, as `insertLoopF_spec` proves; on exhausted fuel the
exit value is returned.  The loop exits when `beg > end`, i.e.
`beg ≥ e1`, and returns `end + 1 = e1`.  `mid = beg + ⌊(end - beg) / 2⌋`
becomes `beg + (e1 - 1 - beg) / 2` in natural-number arithmetic. -/
def insertLoopF (sortedArray : Collection) (v : JVal) (key : String) :
    Nat → Nat → Nat → Nat
  | 0, _, e1 => e1
  | fuel + 1, beg, e1 =>
    if beg < e1 then
      let mid := beg + (e1 - 1 - beg) / 2
      if jsLtOpt (some v) (keyAt sortedArray key mid) then
        insertLoopF sortedArray v key fuel beg mid
      else
        insertLoopF sortedArray v key fuel (mid + 1) e1
    else e1

/-- `_getInsertIndex(sortedArray, value, key)` (lines 796-829): rejects
an `undefined` value, returns 0 on an empty array before any type check,
rejects a value whose `typeof` differs from that of the first element's
`key` property, and otherwise runs the rightmost binary search.  The
`key = key || 'id'` default is applied by callers here (every call in
the library passes the id key or an explicit key). -/
def getInsertIndex (sortedArray : Collection) (value : Option JVal)
    (key : String) : Except MErr Nat :=
  match value with
  | none => .error .undefinedValue
  | some v =>
    match sortedArray with
    | [] => .ok 0
    | r0 :: _ =>
      if typeofOpt (getProp r0 key) ≠ typeofJs v then
        .error .typeMismatch
      else
        .ok (insertLoopF sortedArray v key sortedArray.length 0 sortedArray.length)

/-- The binary-search loop of `_binarySearchIndex` (lines 879-898),
translated exactly as `insertLoopF` is; `some mid` is the `idx: mid`
result and `none` the `idx: undefined` result. -/
def searchLoopF (sortedArray : Collection) (v : JVal) (key : String) :
    Nat → Nat → Nat → Option Nat
  | 0, _, _ => none
  | fuel + 1, beg, e1 =>
    if beg < e1 then
      let mid := beg + (e1 - 1 - beg) / 2
      if jsLtOpt (keyAt sortedArray key mid) (some v) then
        searchLoopF sortedArray v key fuel (mid + 1) e1
      else if jsLtOpt (some v) (keyAt sortedArray key mid) then
        searchLoopF sortedArray v key fuel beg mid
      else
        some mid
    else none

/-- `_binarySearchIndex(sortedArray, value, key)` (lines 865-904):
throws on an `undefined` value; returns bare `undefined` (outer `none`)
on an empty array or a `typeof` mismatch; otherwise returns a result
object whose `idx` field (inner `Option`) is the found index or
`undefined`. -/
def binarySearchIndex (sortedArray : Collection) (value : Option JVal)
    (key : String) : Except MErr (Option (Option Nat)) :=
  match value with
  | none => .error .undefinedValue
  | some v =>
    match sortedArray with
    | [] => .ok none
    | r0 :: _ =>
      if typeofOpt (getProp r0 key) ≠ typeofJs v then
        .ok none
      else
        .ok (some (searchLoopF sortedArray v key sortedArray.length 0 sortedArray.length))

/-- `_binarySearch(sortedArray, value, key)` (lines 840-846): projects
the found record out of `_binarySearchIndex`'s result.  Both the bare
`undefined` result and an `idx: undefined` result yield `undefined`
(the source evaluates `ret.sortedArray[ret.idx]`, indexing with
`undefined` in the latter case). -/
def binarySearch (sortedArray : Collection) (value : Option JVal)
    (key : String) : Except MErr (Option Rec) := do
  let ret ← binarySearchIndex sortedArray value key
  match ret with
  | some (some i) => pure sortedArray[i]?
  | _ => pure none

/-- One iteration of the `payload.forEach` loop of `_pushModels`
(lines 773-783).  The source locates the matching record object and
mutates it in place via `_mergeObject`; the state-passing translation
locates its index and rebuilds the collection with the merged record at
that index.  For a record target and a record source `_mergeObject` is
exactly `mergeFields` (lemma `mergeObject_obj_obj`).  `foundItem` is
truthy exactly when `_binarySearchIndex` produced a defined index (a
record object is always truthy; both undefined results project to
`undefined` in `_binarySearch`). -/
def pushOne (collection : Collection) (item : Rec) : Except MErr Collection := do
  let found ← binarySearchIndex collection (idOf item) "id"
  match found with
  | some (some i) => pure (collection.set i (mergeFields (collection.getD i []) item))
  | _ => do
      let insertIdx ← getInsertIndex collection (idOf item) "id"
      pure (collection.take insertIdx ++ item :: collection.drop insertIdx)

/-- `_pushModels(name, payload)` (lines 755-784) for an already
array-normalized payload, with the collection passed directly, as
`load` passes it.  (The source's `typeof type === 'string'` test on
line 766 reads an undeclared variable, so it is always false and the
first argument is always used as the collection itself.) -/
def pushModels (collection : Collection) (payload : List Rec) :
    Except MErr Collection :=
  payload.foldlM pushOne collection

/-- `createModelOfType(name, ...objs)` (lines 637-649) when no factory
is registered: a fresh empty object extended with a deep copy of every
object argument via `_mergeObject`. -/
def createModelNoFactory (objs : List JVal) : Except MErr JVal :=
  mergeObject (.obj []) objs

/-- The record produced by `createModelOfType(name, obj)` for a record
argument and no factory: `_mergeObject({}, obj)` builds a deep copy of
the record's fields in insertion order. -/
def cloneRec (r : Rec) : Rec := mergeFields [] r

/-- The `load(name, payload)` path (lines 657-694) for an array payload
of record objects, with no factory registered for the collection: each
object is routed through `createModelOfType` — which for a record
argument produces `cloneRec` of it (lemma `createModelNoFactory_obj`) —
and the resulting records are handed to `_pushModels`. -/
def loadRecords (collection : Collection) (payload : List Rec) :
    Except MErr Collection :=
  pushModels collection (payload.map cloneRec)

/-- JS property-key coercion (ToString) for the values that can reach
`obj[key]` in the query callbacks.  Only string keys are exercised by
the claims; integers print in decimal as in JS, `undefined` reads the
property named "undefined".  The stringifications of functions, arrays
and objects are not modelled precisely (no claim depends on them). -/
def keyStrOpt : Option JVal → String
  | some (.str s) => s
  | some (.num n) => toString n
  | some (.bool b) => toString b
  | some .null => "null"
  | some (.fn _) => "function"
  | some (.arr _) => ""
  | some (.obj _) => "object Object"
  | none => "undefined"

/-- `all(name, key, val)` (lines 956-975) on the named collection
(which the caller has checked exists; a missing name throws before this
point and is outside these claims).  With no arguments: a copy of the
whole collection.  With only `key` (treated as an id value): a
single-element array from `_binarySearch`, or empty.  With `key` and
`val`: a linear filter on strict equality. -/
def allQ (collection : Collection) (key val : Option JVal) :
    Except MErr (List Rec) := do
  match val with
  | none =>
    match key with
    | none => pure collection
    | some _ => do
        let ret ← binarySearch collection key "id"
        match ret with
        | some r => pure [r]
        | none => pure []
  | some v =>
      pure (collection.filter
        (fun r => jsStrictEqOpt (getProp r (keyStrOpt key)) (some v)))

/-- `find(name, key, val)` (lines 985-998): `_binarySearch` by id when
`val` is undefined, else the first record matching the filter. -/
def findQ (collection : Collection) (key val : Option JVal) :
    Except MErr (Option Rec) := do
  match val with
  | none => binarySearch collection key "id"
  | some v =>
      pure (collection.find?
        (fun r => jsStrictEqOpt (getProp r (keyStrOpt key)) (some v)))

/-- The numeric comparator `(a, b) => a[key] - b[key]` (line 929) as a
total precedence for a stable merge sort (JS `Array.prototype.sort` is
stable): a nonpositive comparator result keeps `a` before `b`.  A pair
that is not two numbers makes the subtraction NaN, which the sort treats
as 0 (equal), hence `true`. -/
def leNumKey (key : String) (a b : Rec) : Bool :=
  match getProp a key, getProp b key with
  | some (.num x), some (.num y) => decide (x ≤ y)
  | _, _ => true

/-- The generic comparator (lines 931-941): `-1` when `a[key] < b[key]`,
`1` when `b[key] < a[key]`, else `0`; as a merge-sort precedence this is
"not `b[key] < a[key]`". -/
def leGenKey (key : String) (a b : Rec) : Bool :=
  ! jsLtOpt (getProp b key) (getProp a key)

/-- `sortBy(name, key)` (lines 915-946) as a state transformer on the
stored collection: `slice()` takes a copy, the copy is sorted in place
(skipping the sort when the key is `id` or the copy is empty, line 927),
and the copy is returned; the stored collection itself is returned
unchanged as the second component. -/
def sortByOp (collection : Collection) (key : String) :
    List Rec × Collection :=
  let sortedArray := collection
  let sortedArray :=
    if sortedArray.length ≠ 0 ∧ key ≠ "id" then
      if typeofOpt (keyAt sortedArray key 0) = .numberTy then
        sortedArray.mergeSort (leNumKey key)
      else
        sortedArray.mergeSort (leGenKey key)
    else sortedArray
  (sortedArray, collection)

/-- `all` as a state transformer: it only reads the stored collection
(`slice`, `_binarySearch`, `filter` allocate their results), so the
stored collection is returned unchanged. -/
def allOp (collection : Collection) (key val : Option JVal) :
    Except MErr (List Rec) × Collection :=
  (allQ collection key val, collection)

/-- `find` as a state transformer: read-only, like `allOp`. -/
def findOp (collection : Collection) (key val : Option JVal) :
    Except MErr (Option Rec) × Collection :=
  (findQ collection key val, collection)

/-- The removal loop of `removeModels` (lines 1024-1029).  The source
reads `this._binarySearchIndex(collection, models[i].id).idx`; when
`_binarySearchIndex` returns bare `undefined` (empty collection or
identifier-type mismatch, lines 873-877) that `.idx` access raises a
TypeError, modelled as `MErr.jsTypeError`.  A defined result object
with `idx: undefined` is skipped; a found index is spliced out and the
removed record collected in iteration order. -/
def removeModelsGo (collection : Collection) (models : List Rec) :
    Except MErr (List Rec × Collection) :=
  match models with
  | [] => pure ([], collection)
  | m :: rest => do
    let ret ← binarySearchIndex collection (idOf m) "id"
    match ret with
    | none => .error .jsTypeError
    | some none => removeModelsGo collection rest
    | some (some idx) => do
        let (deleted, c2) ← removeModelsGo (collection.eraseIdx idx) rest
        pure ((collection.getD idx []) :: deleted, c2)

/-- Membership of a record in a record list, by structural equality
(used in statements in place of a derived decidable equality). -/
def memRec (r : Rec) (ms : List Rec) : Bool :=
  ms.any (fun m => jbeqFields r m)

/-- `removeWhere(name, key, val)` (lines 1042-1049): throws when both
`key` and `val` are undefined; otherwise `all` followed by
`removeModels` on its result. -/
def removeWhere (collection : Collection) (key val : Option JVal) :
    Except MErr (List Rec × Collection) :=
  match key, val with
  | none, none => .error .ambiguousRemoval
  | _, _ => do
      let models ← allQ collection key val
      removeModelsGo collection models

/-- A JS value in factory position: functions may carry own properties
(`Factory.create = ...`), as may plain objects; anything else is a bare
value with no own `create` property. -/
inductive FVal : Type where
  | fnVal (props : List (String × JVal))
  | objVal (props : List (String × JVal))
  | primVal (v : JVal)

/-- `typeof factory`. -/
def typeofF : FVal → JsTy
  | .fnVal _ => .functionTy
  | .objVal _ => .objectTy
  | .primVal v => typeofJs v

/-- `factory.create`. -/
def getPropF : FVal → String → Option JVal
  | .fnVal props, k => getProp props k
  | .objVal props, k => getProp props k
  | .primVal _, _ => none

/-- The mochila instance state: `this._store` and `this._factories`,
each a name-indexed table. -/
structure MStore where
  store : List (String × Collection)
  factories : List (String × FVal)

/-- `addFactory(name, factory)` (lines 614-628): fails when the named
collection does not exist, when a factory is already registered for the
name, or when `typeof factory !== 'function' || typeof factory.create
!== 'function'`; otherwise records the binding. -/
def addFactory (st : MStore) (name : String) (factory : FVal) :
    Except MErr MStore :=
  if ((st.store.find? (fun p => p.1 == name)).isNone) then
    .error .unknownCollection
  else if ((st.factories.find? (fun p => p.1 == name)).isSome) then
    .error .factoryExists
  else if !(typeofF factory == .functionTy
      && typeofOpt (getPropF factory "create") == .functionTy) then
    .error .invalidFactory
  else
    .ok ⟨st.store, st.factories ++ [(name, factory)]⟩

/-- The identifier field of a record is a number or a string (Record
contract, spec section 3). -/
def IsIdTy (ty : JsTy) : Prop := ty = .numberTy ∨ ty = .stringTy

/-- A collection sorted strictly ascending by identifier (ascending and
duplicate-free at once). -/
def IdSorted (c : Collection) : Prop :=
  c.Pairwise (fun r s => jsLtOpt (idOf r) (idOf s) = true)

/-- Every record of the collection carries a defined identifier of
`typeof` result `ty`. -/
def IdsTyped (c : Collection) (ty : JsTy) : Prop :=
  ∀ r ∈ c, ∃ p, idOf r = some p ∧ typeofJs p = ty

/-- A well-formed collection with identifier type `ty`: strictly sorted
by identifier, homogeneously typed identifiers, and records with
distinct own-property names. -/
def WFColl (c : Collection) (ty : JsTy) : Prop :=
  IdSorted c ∧ IdsTyped c ty ∧ ∀ r ∈ c, NodupKeys r

/-- A record is well-formed payload material for identifier type `ty`. -/
def WFRec (r : Rec) (ty : JsTy) : Prop :=
  NodupKeys r ∧ ∃ p, idOf r = some p ∧ typeofJs p = ty

/-- The `key` properties of a collection's records, in order. -/
def keyList (c : Collection) (key : String) : List (Option JVal) :=
  c.map (fun r => getProp r key)

/-- Ascending (non-strict) order on a list of possibly-undefined values:
no later element is `jsLt`-below an earlier one. -/
def OptSortedLe (l : List (Option JVal)) : Prop :=
  l.Pairwise (fun a b => jsLtOpt b a = false)

/-- Inserting a record whose `key` property is `v` at position `j` of
collection `c` leaves the `key` properties in ascending order. -/
def InsKeepsSorted (c : Collection) (key : String) (v : JVal) (j : Nat) :
    Prop :=
  OptSortedLe ((keyList c key).take j ++ some v :: (keyList c key).drop j)

/-- The value an `_mergeObject` call with the given source list leaves
under property `k`: the `k` value of the last object source that carries
`k`, if any (later sources win field-by-field). -/
def lastVal (objs : List JVal) (k : String) : Option JVal :=
  objs.foldl
    (fun acc s =>
      match s with
      | .obj sf =>
        match getProp sf k with
        | some v => some v
        | none => acc
      | _ => acc)
    none

/-- The spec's five-record example collection with numeric ids 1..5. -/
def sampleIds : Collection :=
  [[("id", JVal.num 1)], [("id", JVal.num 2)], [("id", JVal.num 3)],
    [("id", JVal.num 4)], [("id", JVal.num 5)]]

/-- JS values instrumented with container identity: every array and
object carries the allocation tag of its underlying heap cell, so that
sharing of mutable state is observable.  Two values share mutable state
exactly when they share a tag. -/
inductive HVal : Type where
  | num (n : Int)
  | str (s : String)
  | bool (b : Bool)
  | null
  | fn (token : Nat)
  | arr (tag : Nat) (elems : List HVal)
  | obj (tag : Nat) (fields : List (String × HVal))

mutual
/-- `deepCopy` (lines 704-724) with allocation instrumented: `ret = []`
and `ret = {}` allocate fresh cells, numbered from the counter upward.
The `typeof source === 'object'` branch also receives `null`
(`typeof null === 'object'`; `for..in` over `null` runs zero
iterations), so `null` is copied as a freshly allocated empty object;
numbers, strings, booleans and functions are returned as-is with no
allocation. -/
def deepCopyH : HVal → Nat → HVal × Nat
  | .arr _ l, c =>
      let p := deepCopyHList l (c + 1)
      (.arr c p.1, p.2)
  | .obj _ fs, c =>
      let p := deepCopyHFields fs (c + 1)
      (.obj c p.1, p.2)
  | .null, c => (.obj c [], c + 1)
  | v, c => (v, c)

def deepCopyHList : List HVal → Nat → List HVal × Nat
  | [], c => ([], c)
  | v :: vs, c =>
      let p := deepCopyH v c
      let q := deepCopyHList vs p.2
      (p.1 :: q.1, q.2)

def deepCopyHFields : List (String × HVal) → Nat → List (String × HVal) × Nat
  | [], c => ([], c)
  | (k, v) :: fs, c =>
      let p := deepCopyH v c
      let q := deepCopyHFields fs p.2
      ((k, p.1) :: q.1, q.2)
end

mutual
/-- The tags of all container cells reachable from a value. -/
def tagsH : HVal → List Nat
  | .arr t l => t :: tagsHList l
  | .obj t fs => t :: tagsHFields fs
  | _ => []

def tagsHList : List HVal → List Nat
  | [] => []
  | v :: vs => tagsH v ++ tagsHList vs

def tagsHFields : List (String × HVal) → List Nat
  | [] => []
  | (_, v) :: fs => tagsH v ++ tagsHFields fs
end

/-- Property assignment on a tagged object's field list (as `setProp`). -/
def setPropH : List (String × HVal) → String → HVal → List (String × HVal)
  | [], key, v => [(key, v)]
  | p :: rest, key, v =>
    if p.1 = key then (key, v) :: rest else p :: setPropH rest key v

mutual
/-- Mutation of a shared cell: assign field `k := w` on every object
cell carrying `tag` (in a well-formed state one tag identifies one cell,
shared by every structure that contains it). -/
def setFieldAt (tag : Nat) (k : String) (w : HVal) : HVal → HVal
  | .obj t fs =>
      let fs2 := setFieldAtFields tag k w fs
      if t = tag then .obj t (setPropH fs2 k w) else .obj t fs2
  | .arr t l => .arr t (setFieldAtList tag k w l)
  | v => v

def setFieldAtList (tag : Nat) (k : String) (w : HVal) : List HVal → List HVal
  | [] => []
  | v :: vs => setFieldAt tag k w v :: setFieldAtList tag k w vs

def setFieldAtFields (tag : Nat) (k : String) (w : HVal) :
    List (String × HVal) → List (String × HVal)
  | [] => []
  | (k2, v) :: fs => (k2, setFieldAt tag k w v) :: setFieldAtFields tag k w fs
end

mutual
/-- Forget container identity, projecting a tagged value to the plain
value model. -/
def eraseH : HVal → JVal
  | .num n => .num n
  | .str s => .str s
  | .bool b => .bool b
  | .null => .null
  | .fn t => .fn t
  | .arr _ l => .arr (eraseHList l)
  | .obj _ fs => .obj (eraseHFields fs)

def eraseHList : List HVal → List JVal
  | [] => []
  | v :: vs => eraseH v :: eraseHList vs

def eraseHFields : List (String × HVal) → List (String × JVal)
  | [] => []
  | (k, v) :: fs => (k, eraseH v) :: eraseHFields fs
end

/-! ## Basic lemmas: structural equality and the JS order -/

mutual
theorem jbeq_iff : ∀ a b, jbeq a b = true ↔ a = b
  | .num _, b => by cases b <;> simp [jbeq]
  | .str _, b => by cases b <;> simp [jbeq]
  | .bool _, b => by cases b <;> simp [jbeq]
  | .null, b => by cases b <;> simp [jbeq]
  | .fn _, b => by cases b <;> simp [jbeq]
  | .arr a, b => by cases b <;> simp [jbeq, jbeqList_iff a]
  | .obj a, b => by cases b <;> simp [jbeq, jbeqFields_iff a]

theorem jbeqList_iff : ∀ a b, jbeqList a b = true ↔ a = b
  | [], b => by cases b <;> simp [jbeqList]
  | a :: as', b => by
      cases b <;> simp [jbeqList, jbeq_iff a, jbeqList_iff as']

theorem jbeqFields_iff : ∀ a b, jbeqFields a b = true ↔ a = b
  | [], b => by cases b <;> simp [jbeqFields]
  | (k, v) :: as', b => by
      cases b with
      | nil => simp [jbeqFields]
      | cons hd tl =>
          obtain ⟨k2, v2⟩ := hd
          simp [jbeqFields, jbeq_iff v, jbeqFields_iff as', and_assoc]
end

theorem memRec_iff (r : Rec) (ms : List Rec) : memRec r ms = true ↔ r ∈ ms := by
  simp [memRec, List.any_eq_true, jbeqFields_iff]

theorem jsLt_irrefl (a : JVal) : jsLt a a = false := by
  cases a <;> simp [jsLt]

theorem jsLt_asymm {a b : JVal} (h : jsLt a b = true) : jsLt b a = false := by
  cases a <;> cases b <;> simp_all [jsLt] <;> exact le_of_lt h

/-- From `a < b` and `b ≤ c` (as the failure of `c < b`) infer `a < c`,
for same-typed comparable operands. -/
theorem jsLt_lt_of_lt_of_nlt {a b c : JVal} (hbc : typeofJs b = typeofJs c)
    (hab : jsLt a b = true) (hcb : jsLt c b = false) : jsLt a c = true := by
  cases a <;> cases b <;> cases c <;> simp_all [jsLt, typeofJs] <;>
    exact lt_of_lt_of_le hab hcb

/-- From `b ≤ a` (as the failure of `a < b`) and `a < c` infer `b < c`,
for same-typed comparable operands. -/
theorem jsLt_lt_of_nlt_of_lt {a b c : JVal} (hab : typeofJs a = typeofJs b)
    (h1 : jsLt a b = false) (h2 : jsLt a c = true) : jsLt b c = true := by
  cases a <;> cases b <;> cases c <;> simp_all [jsLt, typeofJs] <;>
    exact lt_of_le_of_lt h1 h2

/-- Two comparable same-typed identifier values with neither below the
other are equal (the `===` hit of the binary search). -/
theorem jsLt_eq_of_nlt_of_nlt {a b : JVal} (hty : typeofJs a = typeofJs b)
    (hid : IsIdTy (typeofJs a)) (h1 : jsLt a b = false)
    (h2 : jsLt b a = false) : a = b := by
  cases a <;> cases b <;> simp_all [jsLt, typeofJs, IsIdTy]
  · exact le_antisymm h2 h1
  · exact String.ext (le_antisymm h2 h1)

/-- Distinct comparable same-typed identifier values are ordered. -/
theorem jsLt_total_of_ne {a b : JVal} (hty : typeofJs a = typeofJs b)
    (hid : IsIdTy (typeofJs a)) (hne : a ≠ b) (h1 : jsLt a b = false) :
    jsLt b a = true := by
  by_contra h
  exact hne (jsLt_eq_of_nlt_of_nlt hty hid h1 (by simpa using h))

/-! ## Lemmas on property lists, deep copy and merge -/

theorem getProp_eq_none_iff (l : Rec) (k : String) :
    getProp l k = none ↔ k ∉ l.map Prod.fst := by
  induction l with
  | nil => simp [getProp]
  | cons p rest ih =>
      by_cases h : p.1 = k
      · simp [getProp, h]
      · rw [show getProp (p :: rest) k = getProp rest k from by
          simp [getProp, h], ih]
        simp only [List.map_cons, List.mem_cons]
        push_neg
        constructor
        · intro hn
          exact ⟨fun he => h he.symm, hn⟩
        · intro hn
          exact hn.2

theorem getProp_mem_of_nodup {r : Rec} (hnd : NodupKeys r) {p : String × JVal}
    (hp : p ∈ r) : getProp r p.1 = some p.2 := by
  induction r with
  | nil => cases hp
  | cons q rest ih =>
      simp only [NodupKeys, List.map_cons, List.nodup_cons] at hnd
      rcases List.mem_cons.mp hp with h | h
      · subst h
        simp [getProp]
      · have hne : q.1 ≠ p.1 := by
          intro he
          exact hnd.1 (he ▸ List.mem_map_of_mem Prod.fst h)
        simpa [getProp, hne] using ih hnd.2 h

theorem keys_setProp_of_mem {fs : Rec} {k : String}
    (h : k ∈ fs.map Prod.fst) (v : JVal) :
    (setProp fs k v).map Prod.fst = fs.map Prod.fst := by
  induction fs with
  | nil => cases h
  | cons p rest ih =>
      by_cases hk : p.1 = k
      · simp [setProp, hk]
      · have h2 : k ∈ rest.map Prod.fst := by
          rcases List.mem_cons.mp h with h | h
          · exact absurd h.symm hk
          · exact h
        simp [setProp, hk, ih h2]

theorem setProp_append_of_not_mem {fs : Rec} {k : String}
    (h : k ∉ fs.map Prod.fst) (v : JVal) :
    setProp fs k v = fs ++ [(k, v)] := by
  induction fs with
  | nil => simp [setProp]
  | cons p rest ih =>
      simp only [List.map_cons, List.mem_cons] at h
      push_neg at h
      have hne : ¬ p.1 = k := fun he => h.1 he.symm
      simp [setProp, hne, ih h.2]

theorem NodupKeys_setProp {fs : Rec} (hnd : NodupKeys fs) (k : String)
    (v : JVal) : NodupKeys (setProp fs k v) := by
  by_cases h : k ∈ fs.map Prod.fst
  · unfold NodupKeys
    rw [keys_setProp_of_mem h]
    exact hnd
  · unfold NodupKeys
    rw [setProp_append_of_not_mem h v]
    simp only [List.map_append, List.map_cons, List.map_nil]
    refine List.Nodup.append hnd (List.nodup_singleton k) ?_
    intro a ha hb
    rcases List.mem_singleton.mp hb with rfl
    exact h ha

theorem getProp_setProp_self (fs : Rec) (k : String) (v : JVal) :
    getProp (setProp fs k v) k = some v := by
  induction fs with
  | nil => simp [setProp, getProp]
  | cons p rest ih =>
      by_cases hk : p.1 = k
      · simp [setProp, getProp, hk]
      · simp [setProp, getProp, hk, ih]

theorem getProp_setProp_ne (fs : Rec) {k k2 : String} (hne : k2 ≠ k)
    (v : JVal) : getProp (setProp fs k v) k2 = getProp fs k2 := by
  have hkk2 : ¬ k = k2 := fun he => hne he.symm
  induction fs with
  | nil => simp [setProp, getProp, hkk2]
  | cons p rest ih =>
      by_cases hk : p.1 = k
      · rw [show setProp (p :: rest) k v = (k, v) :: rest from by
          simp [setProp, hk]]
        simp [getProp, hkk2, hk]
      · rw [show setProp (p :: rest) k v = p :: setProp rest k v from by
          simp [setProp, hk]]
        by_cases hk2 : p.1 = k2
        · simp [getProp, hk2]
        · simp [getProp, hk2, ih]

theorem setProp_eq_self {fs : Rec} {k : String}
    {v : JVal} (h : getProp fs k = some v) : setProp fs k v = fs := by
  induction fs with
  | nil => simp [getProp] at h
  | cons p rest ih =>
      obtain ⟨p1, p2⟩ := p
      by_cases hk : p1 = k
      · simp only [getProp, hk, if_true, Option.some.injEq] at h
        simp [setProp, hk, ← h]
      · simp only [getProp, hk, if_false] at h
        simp [setProp, hk, ih h]

theorem deepCopy_of_idTy {p : JVal} (hid : IsIdTy (typeofJs p)) :
    deepCopy p = p := by
  cases p <;> simp_all [typeofJs, IsIdTy, deepCopy]

mutual
theorem deepCopy_idem : ∀ v, deepCopy (deepCopy v) = deepCopy v
  | .num _ => rfl
  | .str _ => rfl
  | .bool _ => rfl
  | .null => rfl
  | .fn _ => rfl
  | .arr l => by simp [deepCopy, deepCopyList_idem l]
  | .obj fs => by simp [deepCopy, deepCopyFields_idem fs]

theorem deepCopyList_idem : ∀ l, deepCopyList (deepCopyList l) = deepCopyList l
  | [] => rfl
  | v :: vs => by simp [deepCopyList, deepCopy_idem v, deepCopyList_idem vs]

theorem deepCopyFields_idem :
    ∀ fs, deepCopyFields (deepCopyFields fs) = deepCopyFields fs
  | [] => rfl
  | (k, v) :: fs => by
      simp [deepCopyFields, deepCopy_idem v, deepCopyFields_idem fs]
end

theorem mergeFields_cons (t : Rec) (k : String) (v : JVal) (src : Rec) :
    mergeFields t ((k, v) :: src) = mergeFields (setProp t k (deepCopy v)) src :=
  rfl

theorem getProp_mergeFields {src : Rec} (hnd : NodupKeys src) :
    ∀ (t : Rec) (k : String),
      getProp (mergeFields t src) k =
        match getProp src k with
        | some v => some (deepCopy v)
        | none => getProp t k := by
  induction src with
  | nil => intro t k; simp [mergeFields, getProp]
  | cons p rest ih =>
      intro t k
      obtain ⟨k1, v1⟩ := p
      simp only [NodupKeys, List.map_cons, List.nodup_cons] at hnd
      rw [mergeFields_cons, ih hnd.2]
      by_cases hk : k1 = k
      · subst hk
        have hrest : getProp rest k1 = none := by
          rw [getProp_eq_none_iff]
          exact hnd.1
        simp [getProp, hrest, getProp_setProp_self]
      · rcases hr : getProp rest k with _ | w
        · simp [getProp, hk, hr,
            getProp_setProp_ne t (fun he : k = k1 => hk he.symm) (deepCopy v1)]
        · simp [getProp, hk, hr]

theorem NodupKeys_mergeFields {t : Rec} (hnd : NodupKeys t) (src : Rec) :
    NodupKeys (mergeFields t src) := by
  induction src generalizing t with
  | nil => exact hnd
  | cons p rest ih =>
      rw [show ((p :: rest : Rec)) = ((p.1, p.2) :: rest) from rfl,
        mergeFields_cons]
      exact ih (NodupKeys_setProp hnd p.1 (deepCopy p.2))

theorem mergeFields_of_disjoint {src : Rec} (hnd : NodupKeys src) :
    ∀ (t : Rec), (∀ k ∈ src.map Prod.fst, k ∉ t.map Prod.fst) →
      mergeFields t src = t ++ src.map (fun p => (p.1, deepCopy p.2)) := by
  induction src with
  | nil => intro t _; simp [mergeFields]
  | cons p rest ih =>
      intro t hdis
      obtain ⟨k1, v1⟩ := p
      simp only [NodupKeys, List.map_cons, List.nodup_cons] at hnd
      rw [mergeFields_cons]
      have hk1 : k1 ∉ t.map Prod.fst := hdis k1 (by simp)
      rw [setProp_append_of_not_mem hk1 (deepCopy v1)]
      rw [ih hnd.2 (t ++ [(k1, deepCopy v1)]) ?_]
      · simp
      · intro k hk hmem
        simp only [List.map_append, List.map_cons, List.map_nil,
          List.mem_append, List.mem_singleton] at hmem
        rcases hmem with hq | rfl
        · exact hdis k (List.mem_cons_of_mem _ hk) hq
        · exact hnd.1 hk

theorem cloneRec_eq_map {r : Rec} (hnd : NodupKeys r) :
    cloneRec r = r.map (fun p => (p.1, deepCopy p.2)) := by
  have := mergeFields_of_disjoint hnd [] (by simp)
  simpa [cloneRec] using this

theorem mergeFields_stable {t src : Rec} (hnds : NodupKeys src)
    (h : ∀ p ∈ src, getProp t p.1 = some (deepCopy p.2)) :
    mergeFields t src = t := by
  induction src with
  | nil => rfl
  | cons p rest ih =>
      obtain ⟨k1, v1⟩ := p
      simp only [NodupKeys, List.map_cons, List.nodup_cons] at hnds
      rw [mergeFields_cons,
        setProp_eq_self (h (k1, v1) (List.mem_cons_self _ _))]
      exact ih hnds.2 (fun p hp => h p (List.mem_cons_of_mem _ hp))

/-! ## Binary-search loop invariants -/

theorem insertLoopF_spec (c : Collection) (v : JVal) (key : String)
    (hsorted : ∀ i j, i < j → j < c.length →
      jsLtOpt (keyAt c key j) (keyAt c key i) = false)
    (htyped : ∀ i, i < c.length →
      ∃ p, keyAt c key i = some p ∧ typeofJs p = typeofJs v) :
    ∀ fuel beg e1, e1 - beg ≤ fuel → beg ≤ e1 → e1 ≤ c.length →
      (∀ i, i < beg → jsLtOpt (some v) (keyAt c key i) = false) →
      (∀ i, e1 ≤ i → i < c.length → jsLtOpt (some v) (keyAt c key i) = true) →
      beg ≤ insertLoopF c v key fuel beg e1 ∧
      insertLoopF c v key fuel beg e1 ≤ e1 ∧
      (∀ i, i < insertLoopF c v key fuel beg e1 →
        jsLtOpt (some v) (keyAt c key i) = false) ∧
      (∀ i, insertLoopF c v key fuel beg e1 ≤ i → i < c.length →
        jsLtOpt (some v) (keyAt c key i) = true) := by
  intro fuel
  induction fuel with
  | zero =>
      intro beg e1 hf hbe _ hinv1 hinv2
      have hbeq : beg = e1 := by omega
      subst hbeq
      exact ⟨le_refl _, le_refl _, hinv1, hinv2⟩
  | succ fuel ih =>
      intro beg e1 hf hbe he1 hinv1 hinv2
      by_cases hlt : beg < e1
      · have hmid_lt : beg + (e1 - 1 - beg) / 2 < e1 := by omega
        have hmid_ge : beg ≤ beg + (e1 - 1 - beg) / 2 := by omega
        have hmid_len : beg + (e1 - 1 - beg) / 2 < c.length :=
          lt_of_lt_of_le hmid_lt he1
        obtain ⟨pm, hpm, hpmty⟩ := htyped _ hmid_len
        by_cases hbr :
            jsLtOpt (some v) (keyAt c key (beg + (e1 - 1 - beg) / 2)) = true
        · have hunf : insertLoopF c v key (fuel + 1) beg e1 =
              insertLoopF c v key fuel beg (beg + (e1 - 1 - beg) / 2) := by
            simp only [insertLoopF, if_pos hlt, hbr, if_true]
          rw [hunf]
          have hres := ih beg (beg + (e1 - 1 - beg) / 2) (by omega) hmid_ge
            (le_of_lt hmid_len) hinv1 ?_
          · exact ⟨hres.1, le_trans hres.2.1 (le_of_lt hmid_lt),
              hres.2.2.1, hres.2.2.2⟩
          · intro i hmi hil
            rcases eq_or_lt_of_le hmi with rfl | hmi2
            · exact hbr
            · obtain ⟨pi, hpi, hpity⟩ := htyped i hil
              have hs := hsorted _ i hmi2 hil
              rw [hpm, hpi] at hs
              rw [hpm] at hbr
              rw [hpi]
              simp only [jsLtOpt] at hs hbr ⊢
              exact jsLt_lt_of_lt_of_nlt (by rw [hpmty, hpity]) hbr hs
        · have hbr2 :
              jsLtOpt (some v) (keyAt c key (beg + (e1 - 1 - beg) / 2)) = false :=
            Bool.eq_false_iff.mpr hbr
          have hunf : insertLoopF c v key (fuel + 1) beg e1 =
              insertLoopF c v key fuel (beg + (e1 - 1 - beg) / 2 + 1) e1 := by
            simp only [insertLoopF, if_pos hlt, hbr2]
            rfl
          rw [hunf]
          have hres := ih (beg + (e1 - 1 - beg) / 2 + 1) e1 (by omega)
            (by omega) he1 ?_ hinv2
          · exact ⟨by omega, hres.2.1, hres.2.2.1, hres.2.2.2⟩
          · intro i hi
            rcases Nat.lt_succ_iff_lt_or_eq.mp hi with hi2 | rfl
            · by_cases hib : i < beg
              · exact hinv1 i hib
              · obtain ⟨pi, hpi, hpity⟩ := htyped i
                  (lt_of_lt_of_le (lt_of_lt_of_le hi2 (le_of_lt hmid_lt)) he1)
                have hs := hsorted i _ hi2 hmid_len
                rw [hpm, hpi] at hs
                rw [hpm] at hbr2
                rw [hpi]
                simp only [jsLtOpt] at hs hbr2 ⊢
                by_contra htrue
                have htrue2 : jsLt v pi = true := by simpa using htrue
                exact absurd
                  (jsLt_lt_of_lt_of_nlt (by rw [hpity, hpmty]) htrue2 hs)
                  (by rw [hbr2]; simp)
            · exact hbr2
      · have hbeq : beg = e1 := by omega
        subst hbeq
        have hunf : insertLoopF c v key (fuel + 1) beg beg = beg := by
          simp [insertLoopF, hlt]
        rw [hunf]
        exact ⟨le_refl _, le_refl _, hinv1, hinv2⟩

theorem searchLoopF_spec (c : Collection) (v : JVal) (key : String)
    (hid : IsIdTy (typeofJs v))
    (hsorted : ∀ i j, i < j → j < c.length →
      jsLtOpt (keyAt c key j) (keyAt c key i) = false)
    (htyped : ∀ i, i < c.length →
      ∃ p, keyAt c key i = some p ∧ typeofJs p = typeofJs v) :
    ∀ fuel beg e1, e1 - beg ≤ fuel → beg ≤ e1 → e1 ≤ c.length →
      (∀ i, i < beg → jsLtOpt (keyAt c key i) (some v) = true) →
      (∀ i, e1 ≤ i → i < c.length → jsLtOpt (some v) (keyAt c key i) = true) →
      (∀ j, searchLoopF c v key fuel beg e1 = some j →
        beg ≤ j ∧ j < e1 ∧ keyAt c key j = some v) ∧
      (searchLoopF c v key fuel beg e1 = none →
        ∀ i, i < c.length → keyAt c key i ≠ some v) := by
  have hexit : ∀ beg,
      (∀ i, i < beg → jsLtOpt (keyAt c key i) (some v) = true) →
      (∀ i, beg ≤ i → i < c.length → jsLtOpt (some v) (keyAt c key i) = true) →
      ∀ i, i < c.length → keyAt c key i ≠ some v := by
    intro beg hinv1 hinv2 i hil heq
    by_cases hib : i < beg
    · have := hinv1 i hib
      rw [heq] at this
      simp only [jsLtOpt] at this
      rw [jsLt_irrefl v] at this
      cases this
    · have := hinv2 i (by omega) hil
      rw [heq] at this
      simp only [jsLtOpt] at this
      rw [jsLt_irrefl v] at this
      cases this
  intro fuel
  induction fuel with
  | zero =>
      intro beg e1 hf hbe _ hinv1 hinv2
      have hbeq : beg = e1 := by omega
      subst hbeq
      refine ⟨fun j hj => Option.noConfusion hj, fun _ => ?_⟩
      exact hexit beg hinv1 (fun i hbi hil => hinv2 i hbi hil)
  | succ fuel ih =>
      intro beg e1 hf hbe he1 hinv1 hinv2
      by_cases hlt : beg < e1
      · have hmid_lt : beg + (e1 - 1 - beg) / 2 < e1 := by omega
        have hmid_ge : beg ≤ beg + (e1 - 1 - beg) / 2 := by omega
        have hmid_len : beg + (e1 - 1 - beg) / 2 < c.length :=
          lt_of_lt_of_le hmid_lt he1
        obtain ⟨pm, hpm, hpmty⟩ := htyped _ hmid_len
        by_cases hb1 :
            jsLtOpt (keyAt c key (beg + (e1 - 1 - beg) / 2)) (some v) = true
        · have hunf : searchLoopF c v key (fuel + 1) beg e1 =
              searchLoopF c v key fuel (beg + (e1 - 1 - beg) / 2 + 1) e1 := by
            simp only [searchLoopF, if_pos hlt, hb1, if_true]
          rw [hunf]
          have hres := ih (beg + (e1 - 1 - beg) / 2 + 1) e1 (by omega)
            (by omega) he1 ?_ hinv2
          · exact ⟨fun j hj =>
              ⟨by have := (hres.1 j hj).1; omega, (hres.1 j hj).2.1,
                (hres.1 j hj).2.2⟩, hres.2⟩
          · intro i hi
            rcases Nat.lt_succ_iff_lt_or_eq.mp hi with hi2 | rfl
            · by_cases hib : i < beg
              · exact hinv1 i hib
              · obtain ⟨pi, hpi, hpity⟩ := htyped i
                  (lt_of_lt_of_le (lt_of_lt_of_le hi2 (le_of_lt hmid_lt)) he1)
                have hs := hsorted i _ hi2 hmid_len
                rw [hpm, hpi] at hs
                rw [hpm] at hb1
                rw [hpi]
                simp only [jsLtOpt] at hs hb1 ⊢
                exact jsLt_lt_of_nlt_of_lt (by rw [hpmty, hpity]) hs hb1
            · exact hb1
        · have hb1f :
              jsLtOpt (keyAt c key (beg + (e1 - 1 - beg) / 2)) (some v) = false :=
            Bool.eq_false_iff.mpr hb1
          by_cases hb2 :
              jsLtOpt (some v) (keyAt c key (beg + (e1 - 1 - beg) / 2)) = true
          · have hunf : searchLoopF c v key (fuel + 1) beg e1 =
                searchLoopF c v key fuel beg (beg + (e1 - 1 - beg) / 2) := by
              simp only [searchLoopF, if_pos hlt, hb1f, hb2, if_true]
              rfl
            rw [hunf]
            have hres := ih beg (beg + (e1 - 1 - beg) / 2) (by omega) hmid_ge
              (le_of_lt hmid_len) hinv1 ?_
            · exact ⟨fun j hj =>
                ⟨(hres.1 j hj).1, lt_trans (hres.1 j hj).2.1 hmid_lt,
                  (hres.1 j hj).2.2⟩, hres.2⟩
            · intro i hmi hil
              rcases eq_or_lt_of_le hmi with rfl | hmi2
              · exact hb2
              · obtain ⟨pi, hpi, hpity⟩ := htyped i hil
                have hs := hsorted _ i hmi2 hil
                rw [hpm, hpi] at hs
                rw [hpm] at hb2
                rw [hpi]
                simp only [jsLtOpt] at hs hb2 ⊢
                exact jsLt_lt_of_lt_of_nlt (by rw [hpmty, hpity]) hb2 hs
          · have hb2f :
                jsLtOpt (some v) (keyAt c key (beg + (e1 - 1 - beg) / 2)) = false :=
              Bool.eq_false_iff.mpr hb2
            have hunf : searchLoopF c v key (fuel + 1) beg e1 =
                some (beg + (e1 - 1 - beg) / 2) := by
              simp only [searchLoopF, if_pos hlt, hb1f, hb2f]
              rfl
            rw [hunf]
            constructor
            · intro j hj
              obtain rfl : beg + (e1 - 1 - beg) / 2 = j := by
                injection hj
              refine ⟨hmid_ge, hmid_lt, ?_⟩
              rw [hpm] at hb1f hb2f
              simp only [jsLtOpt] at hb1f hb2f
              rw [hpm]
              have : pm = v :=
                jsLt_eq_of_nlt_of_nlt (by rw [hpmty]) (hpmty ▸ hid) hb1f hb2f
              rw [this]
            · intro hnone
              exact Option.noConfusion hnone
      · have hbeq : beg = e1 := by omega
        subst hbeq
        have hunf : searchLoopF c v key (fuel + 1) beg beg = none := by
          simp [searchLoopF, hlt]
        rw [hunf]
        refine ⟨fun j hj => Option.noConfusion hj, fun _ => ?_⟩
        exact hexit beg hinv1 (fun i hbi hil => hinv2 i hbi hil)

/-! ## Top-level search specifications -/

theorem keyAt_eq {cl : Collection} {i : Nat} (hi : i < cl.length)
    (key : String) : keyAt cl key i = getProp (cl[i]) key := by
  simp [keyAt, List.getElem?_eq_getElem hi]

theorem IdSorted_keyAt {cl : Collection} (h : IdSorted cl) :
    ∀ i j, i < j → j < cl.length →
      jsLtOpt (keyAt cl "id" j) (keyAt cl "id" i) = false := by
  intro i j hij hj
  have hi : i < cl.length := lt_trans hij hj
  have hp := List.pairwise_iff_getElem.mp h i j hi hj hij
  rw [keyAt_eq hi, keyAt_eq hj]
  rcases ho1 : idOf (cl[i]) with _ | p
  · rw [show getProp (cl[j]) "id" = idOf (cl[j]) from rfl,
      show getProp (cl[i]) "id" = idOf (cl[i]) from rfl, ho1]
    rcases idOf (cl[j]) with _ | q <;> simp [jsLtOpt]
  · rcases ho2 : idOf (cl[j]) with _ | q
    · rw [show getProp (cl[j]) "id" = idOf (cl[j]) from rfl, ho2]
      simp [jsLtOpt]
    · rw [ho1, ho2] at hp
      rw [show getProp (cl[j]) "id" = idOf (cl[j]) from rfl,
        show getProp (cl[i]) "id" = idOf (cl[i]) from rfl, ho1, ho2]
      simp only [jsLtOpt] at hp ⊢
      exact jsLt_asymm hp

theorem IdsTyped_keyAt {cl : Collection} {ty : JsTy} (h : IdsTyped cl ty)
    {v : JVal} (hv : typeofJs v = ty) :
    ∀ i, i < cl.length →
      ∃ p, keyAt cl "id" i = some p ∧ typeofJs p = typeofJs v := by
  intro i hi
  obtain ⟨p, hp, hpty⟩ := h (cl[i]) (List.getElem_mem hi)
  exact ⟨p, by rw [keyAt_eq hi]; exact hp, by rw [hpty, hv]⟩

theorem getInsertIndex_spec (c : Collection) (v : JVal) (key : String)
    (hsorted : ∀ i j, i < j → j < c.length →
      jsLtOpt (keyAt c key j) (keyAt c key i) = false)
    (htyped : ∀ i, i < c.length →
      ∃ p, keyAt c key i = some p ∧ typeofJs p = typeofJs v) :
    ∃ idx, getInsertIndex c (some v) key = .ok idx ∧ idx ≤ c.length ∧
      (∀ i, i < idx → jsLtOpt (some v) (keyAt c key i) = false) ∧
      (∀ i, idx ≤ i → i < c.length → jsLtOpt (some v) (keyAt c key i) = true) := by
  match c, hsorted, htyped with
  | [], _, _ =>
      refine ⟨0, rfl, by simp, fun i hi => absurd hi (by omega), ?_⟩
      intro i _ hi
      simp at hi
  | r0 :: rest, hsorted, htyped =>
      obtain ⟨p0, hp0, hp0ty⟩ := htyped 0 (by simp)
      have hty : ¬ (typeofOpt (getProp r0 key) ≠ typeofJs v) := by
        rw [show getProp r0 key = keyAt (r0 :: rest) key 0 from by
          simp [keyAt], hp0]
        simp [typeofOpt, hp0ty]
      have hres := insertLoopF_spec (r0 :: rest) v key hsorted htyped
        (r0 :: rest).length 0 (r0 :: rest).length (by omega) (by omega)
        (le_refl _) (fun i hi => absurd hi (by omega))
        (fun i hbi hil => absurd (lt_of_le_of_lt hbi hil) (lt_irrefl _))
      refine ⟨insertLoopF (r0 :: rest) v key (r0 :: rest).length 0
        (r0 :: rest).length, ?_, hres.2.1, hres.2.2.1, hres.2.2.2⟩
      simp only [getInsertIndex, if_neg hty]

theorem binarySearchIndex_empty (v : JVal) (key : String) :
    binarySearchIndex [] (some v) key = .ok none := rfl

theorem binarySearchIndex_mismatch {r0 : Rec} {rest : Collection} {v : JVal}
    (key : String) (h : typeofOpt (getProp r0 key) ≠ typeofJs v) :
    binarySearchIndex (r0 :: rest) (some v) key = .ok none := by
  simp [binarySearchIndex, h]

theorem binarySearchIndex_spec (c : Collection) (v : JVal) (key : String)
    (hid : IsIdTy (typeofJs v))
    (hsorted : ∀ i j, i < j → j < c.length →
      jsLtOpt (keyAt c key j) (keyAt c key i) = false)
    (htyped : ∀ i, i < c.length →
      ∃ p, keyAt c key i = some p ∧ typeofJs p = typeofJs v)
    (hne : c ≠ []) :
    ∃ ro, binarySearchIndex c (some v) key = .ok (some ro) ∧
      (∀ j, ro = some j → j < c.length ∧ keyAt c key j = some v) ∧
      (ro = none → ∀ i, i < c.length → keyAt c key i ≠ some v) := by
  match c, hsorted, htyped, hne with
  | r0 :: rest, hsorted, htyped, _ =>
      obtain ⟨p0, hp0, hp0ty⟩ := htyped 0 (by simp)
      have hty : ¬ (typeofOpt (getProp r0 key) ≠ typeofJs v) := by
        rw [show getProp r0 key = keyAt (r0 :: rest) key 0 from by
          simp [keyAt], hp0]
        simp [typeofOpt, hp0ty]
      have hres := searchLoopF_spec (r0 :: rest) v key hid hsorted htyped
        (r0 :: rest).length 0 (r0 :: rest).length (by omega) (by omega)
        (le_refl _) (fun i hi => absurd hi (by omega))
        (fun i hbi hil => absurd (lt_of_le_of_lt hbi hil) (lt_irrefl _))
      refine ⟨searchLoopF (r0 :: rest) v key (r0 :: rest).length 0
        (r0 :: rest).length, ?_, ?_, hres.2⟩
      · simp only [binarySearchIndex, if_neg hty]
      · intro j hj
        exact ⟨(hres.1 j hj).2.1, (hres.1 j hj).2.2⟩

/-- In a strictly id-sorted collection an identifier value occurs at one
position at most. -/
theorem IdSorted_id_unique {cl : Collection} (hs : IdSorted cl) {i j : Nat}
    (hi : i < cl.length) (hj : j < cl.length) {p : JVal}
    (h1 : keyAt cl "id" i = some p) (h2 : keyAt cl "id" j = some p) : i = j := by
  rcases lt_trichotomy i j with hij | hij | hij
  · have := List.pairwise_iff_getElem.mp hs i j hi hj hij
    rw [show idOf (cl[i]) = keyAt cl "id" i from (keyAt_eq hi "id").symm,
      show idOf (cl[j]) = keyAt cl "id" j from (keyAt_eq hj "id").symm,
      h1, h2] at this
    simp only [jsLtOpt] at this
    rw [jsLt_irrefl p] at this
    cases this
  · exact hij
  · have := List.pairwise_iff_getElem.mp hs j i hj hi hij
    rw [show idOf (cl[i]) = keyAt cl "id" i from (keyAt_eq hi "id").symm,
      show idOf (cl[j]) = keyAt cl "id" j from (keyAt_eq hj "id").symm,
      h1, h2] at this
    simp only [jsLtOpt] at this
    rw [jsLt_irrefl p] at this
    cases this

/-! ## Preservation of the collection invariant by `_pushModels` -/

theorem idOf_eq_keyAt {cl : Collection} {i : Nat} (hi : i < cl.length) :
    idOf (cl[i]) = keyAt cl "id" i := (keyAt_eq hi "id").symm

theorem idOf_mergeFields {t item : Rec} (hnd : NodupKeys item) {p : JVal}
    (hp : idOf item = some p) (hid : IsIdTy (typeofJs p)) :
    idOf (mergeFields t item) = some p := by
  have := getProp_mergeFields hnd t "id"
  rw [show getProp item "id" = idOf item from rfl, hp] at this
  simp only [idOf] at this ⊢
  rw [this, deepCopy_of_idTy hid]

theorem idOf_getElem_set {cl : Collection} {j : Nat} {r2 : Rec}
    (hid : idOf r2 = idOf (cl.getD j [])) {i : Nat}
    (hi : i < (cl.set j r2).length) (hicl : i < cl.length) :
    idOf ((cl.set j r2)[i]) = idOf (cl[i]) := by
  rw [List.getElem_set]
  by_cases hji : j = i
  · subst hji
    rw [if_pos rfl, hid]
    have hj : j < cl.length := by simpa using hi
    rw [List.getD_eq_getElem?_getD, List.getElem?_eq_getElem hj]
    rfl
  · rw [if_neg hji]

theorem IdSorted_set {cl : Collection} (hs : IdSorted cl) {j : Nat}
    {r2 : Rec} (hid : idOf r2 = idOf (cl.getD j [])) :
    IdSorted (cl.set j r2) := by
  rw [IdSorted, List.pairwise_iff_getElem]
  intro i1 i2 h1 h2 h12
  rw [idOf_getElem_set hid h1 (by simpa using h1),
    idOf_getElem_set hid h2 (by simpa using h2)]
  exact List.pairwise_iff_getElem.mp hs i1 i2 (by simpa using h1)
    (by simpa using h2) h12

theorem mem_insert_list {cl : Collection} {idx : Nat} {item a : Rec}
    (h : a ∈ cl.take idx ++ item :: cl.drop idx) : a ∈ cl ∨ a = item := by
  rcases List.mem_append.mp h with h | h
  · exact Or.inl (List.take_subset idx cl h)
  · rcases List.mem_cons.mp h with h | h
    · exact Or.inr h
    · exact Or.inl (List.drop_subset idx cl h)

theorem mem_take_getElem {α : Type} {cl : List α} {idx : Nat} {a : α}
    (ha : a ∈ cl.take idx) :
    ∃ i, ∃ hi : i < cl.length, i < idx ∧ cl[i] = a := by
  obtain ⟨i, hi, hieq⟩ := List.mem_iff_getElem.mp ha
  have h2 : i < idx ∧ i < cl.length := by
    rw [List.length_take] at hi
    omega
  rw [List.getElem_take] at hieq
  exact ⟨i, h2.2, h2.1, hieq⟩

theorem mem_drop_getElem {α : Type} {cl : List α} {idx : Nat} {a : α}
    (ha : a ∈ cl.drop idx) :
    ∃ i, ∃ hi : i < cl.length, idx ≤ i ∧ cl[i] = a := by
  obtain ⟨i, hi, hieq⟩ := List.mem_iff_getElem.mp ha
  have h2 : idx + i < cl.length := by
    rw [List.length_drop] at hi
    omega
  rw [List.getElem_drop] at hieq
  exact ⟨idx + i, h2, by omega, hieq⟩

theorem IdSorted_insert {cl : Collection} (hs : IdSorted cl) {item : Rec}
    {p : JVal} (hidp : idOf item = some p) {idx : Nat} (_hidx : idx ≤ cl.length)
    (hbefore : ∀ i, i < idx → i < cl.length →
      jsLtOpt (keyAt cl "id" i) (some p) = true)
    (hafter : ∀ i, idx ≤ i → i < cl.length →
      jsLtOpt (some p) (keyAt cl "id" i) = true) :
    IdSorted (cl.take idx ++ item :: cl.drop idx) := by
  rw [IdSorted, List.pairwise_append]
  refine ⟨hs.sublist (List.take_sublist idx cl), ?_, ?_⟩
  · rw [List.pairwise_cons]
    refine ⟨?_, hs.sublist (List.drop_sublist idx cl)⟩
    intro b hb
    obtain ⟨i, hi, hidxi, hieq⟩ := mem_drop_getElem hb
    rw [hidp, ← hieq, idOf_eq_keyAt hi]
    exact hafter i hidxi hi
  · intro a ha b hb
    obtain ⟨i, hi, hiidx, hieq⟩ := mem_take_getElem ha
    rcases List.mem_cons.mp hb with rfl | hb
    · rw [hidp, ← hieq, idOf_eq_keyAt hi]
      exact hbefore i hiidx hi
    · obtain ⟨i2, hi2, hidxi2, hieq2⟩ := mem_drop_getElem hb
      rw [← hieq, ← hieq2]
      exact List.pairwise_iff_getElem.mp hs i i2 hi hi2 (by omega)

theorem pushOne_spec {cl : Collection} {ty : JsTy} (hty : IsIdTy ty)
    (hwf : WFColl cl ty) {item : Rec} (hitem : WFRec item ty) :
    ∃ cl2, pushOne cl item = .ok cl2 ∧ WFColl cl2 ty ∧
      ((∃ j, ∃ hj : j < cl.length, idOf (cl[j]) = idOf item ∧
          cl2 = cl.set j (mergeFields (cl.getD j []) item)) ∨
        ((∀ r ∈ cl, idOf r ≠ idOf item) ∧
          ∃ idx, idx ≤ cl.length ∧
            cl2 = cl.take idx ++ item :: cl.drop idx)) := by
  obtain ⟨hndi, p, hp, hpty⟩ := hitem
  have hidp : IsIdTy (typeofJs p) := by rw [hpty]; exact hty
  match cl, hwf with
  | [], _ =>
      refine ⟨[item], ?_, ?_, Or.inr ⟨by simp, 0, by simp, by simp⟩⟩
      · simp [pushOne, hp, binarySearchIndex, getInsertIndex]
        rfl
      · refine ⟨List.pairwise_singleton _ _, ?_, ?_⟩
        · intro r hr
          rcases List.mem_singleton.mp hr with rfl
          exact ⟨p, hp, hpty⟩
        · intro r hr
          rcases List.mem_singleton.mp hr with rfl
          exact hndi
  | r0 :: rest, hwf =>
      obtain ⟨hsorted, htypedC, hndC⟩ := hwf
      have hskey := IdSorted_keyAt hsorted
      have htkey := IdsTyped_keyAt htypedC (v := p) hpty
      obtain ⟨ro, hbs, hfound, hnotfound⟩ :=
        binarySearchIndex_spec (r0 :: rest) p "id" hidp hskey htkey
          (by simp)
      rcases ro with _ | j
      · -- not found: insert at the computed index
        have hnf := hnotfound rfl
        obtain ⟨idx, hgi, hidx, hbef, haft⟩ :=
          getInsertIndex_spec (r0 :: rest) p "id" hskey htkey
        have hne : ∀ r ∈ r0 :: rest, idOf r ≠ idOf item := by
          intro r hr heq
          obtain ⟨i, hi, hieq⟩ := List.mem_iff_getElem.mp hr
          apply hnf i hi
          rw [keyAt_eq hi, hieq,
            show getProp r "id" = idOf r from rfl, heq, hp]
        have hbefs : ∀ i, i < idx → i < (r0 :: rest).length →
            jsLtOpt (keyAt (r0 :: rest) "id" i) (some p) = true := by
          intro i hiidx hilen
          obtain ⟨q, hq, hqty⟩ := htkey i hilen
          have hne2 : q ≠ p := fun he => hnf i hilen (by rw [hq, he])
          have hb := hbef i hiidx
          rw [hq] at hb ⊢
          simp only [jsLtOpt] at hb ⊢
          exact jsLt_total_of_ne hqty.symm hidp (Ne.symm hne2) hb
        refine ⟨(r0 :: rest).take idx ++ item :: (r0 :: rest).drop idx,
          ?_, ?_, Or.inr ⟨hne, idx, hidx, rfl⟩⟩
        · simp only [pushOne, hp, hbs, hgi]
          rfl
        · refine ⟨IdSorted_insert hsorted hp hidx hbefs haft, ?_, ?_⟩
          · intro r hr
            rcases mem_insert_list hr with hr | rfl
            · exact htypedC r hr
            · exact ⟨p, hp, hpty⟩
          · intro r hr
            rcases mem_insert_list hr with hr | rfl
            · exact hndC r hr
            · exact hndi
      · -- found: merge in place
        obtain ⟨hj, hkj⟩ := hfound j rfl
        have hidj : idOf ((r0 :: rest)[j]) = idOf item := by
          rw [idOf_eq_keyAt hj, hkj, hp]
        have hgd : (r0 :: rest).getD j [] = (r0 :: rest)[j] := by
          rw [List.getD_eq_getElem?_getD, List.getElem?_eq_getElem hj]
          rfl
        refine ⟨(r0 :: rest).set j
          (mergeFields ((r0 :: rest).getD j []) item), ?_, ?_,
          Or.inl ⟨j, hj, hidj, rfl⟩⟩
        · simp only [pushOne, hp, hbs]
          rfl
        · have hmid : idOf (mergeFields ((r0 :: rest).getD j []) item) =
              idOf ((r0 :: rest).getD j []) := by
            rw [idOf_mergeFields hndi hp hidp, hgd, hidj, hp]
          refine ⟨IdSorted_set hsorted hmid, ?_, ?_⟩
          · intro r hr
            rcases List.mem_or_eq_of_mem_set hr with hr | rfl
            · exact htypedC r hr
            · exact ⟨p, idOf_mergeFields hndi hp hidp, hpty⟩
          · intro r hr
            rcases List.mem_or_eq_of_mem_set hr with hr | rfl
            · exact hndC r hr
            · rw [hgd]
              exact NodupKeys_mergeFields (hndC _ (List.getElem_mem hj)) item

theorem jsLtOpt_irrefl (x : Option JVal) : jsLtOpt x x = false := by
  rcases x with _ | v
  · rfl
  · simp only [jsLtOpt]
    exact jsLt_irrefl v

theorem pushModels_wf {ty : JsTy} (hty : IsIdTy ty) :
    ∀ (payload : List Rec) (cl : Collection), WFColl cl ty →
      (∀ r ∈ payload, WFRec r ty) →
      ∃ cl2, pushModels cl payload = .ok cl2 ∧ WFColl cl2 ty := by
  intro payload
  induction payload with
  | nil =>
      intro cl hwf _
      exact ⟨cl, rfl, hwf⟩
  | cons r rest ih =>
      intro cl hwf hp
      obtain ⟨cl1, h1, hwf1, _⟩ :=
        pushOne_spec hty hwf (hp r (List.mem_cons_self _ _))
      obtain ⟨cl2, h2, hwf2⟩ :=
        ih cl1 hwf1 (fun x hx => hp x (List.mem_cons_of_mem _ hx))
      refine ⟨cl2, ?_, hwf2⟩
      rw [pushModels, List.foldlM_cons, h1]
      exact h2

theorem IdSorted_pairwise_ne {cl : Collection} (hs : IdSorted cl) :
    cl.Pairwise (fun r s => idOf r ≠ idOf s) := by
  refine hs.imp ?_
  intro a b hab heq
  rw [heq] at hab
  rw [jsLtOpt_irrefl (idOf b)] at hab
  cases hab

theorem mergeObject_obj_obj (t s : Rec) :
    mergeObject (.obj t) [.obj s] = .ok (.obj (mergeFields t s)) := rfl

theorem createModelNoFactory_obj (r : Rec) :
    createModelNoFactory [.obj r] = .ok (.obj (cloneRec r)) := rfl

/-! ## Claim theorems -/

/-- C1: For every collection that is sorted ascending by id and
duplicate-free, and every payload sequence of records whose ids are
defined and of the collection's id type, after insertAll
(load/_pushModels) the collection is again sorted ascending by id and
contains no two records with the same id.  Sorted-and-duplicate-free is
the strict pairwise order `IdSorted`; records are keyed structures, so
they carry distinct own-property names (`WFRec`, `WFColl`), and the
Record contract makes identifiers numbers or strings (`IsIdTy`). -/
theorem claim_C1 (cl : Collection) (payload : List Rec) (ty : JsTy)
    (hty : IsIdTy ty) (hwf : WFColl cl ty)
    (hpayload : ∀ r ∈ payload, WFRec r ty) :
    ∃ cl2, pushModels cl payload = .ok cl2 ∧ IdSorted cl2 ∧
      cl2.Pairwise (fun r s => idOf r ≠ idOf s) := by
  obtain ⟨cl2, hps, hwf2⟩ := pushModels_wf hty payload cl hwf hpayload
  exact ⟨cl2, hps, hwf2.1, IdSorted_pairwise_ne hwf2.1⟩

theorem claim_C1_witness :
    IsIdTy .numberTy ∧
    WFColl [[("id", JVal.num 1)]] .numberTy ∧
    (∀ r ∈ [[("id", JVal.num 0)], [("id", JVal.num 1), ("x", JVal.str "y")]],
      WFRec r .numberTy) ∧
    (∃ cl2, pushModels [[("id", JVal.num 1)]]
        [[("id", JVal.num 0)], [("id", JVal.num 1), ("x", JVal.str "y")]] =
        .ok cl2 ∧ IdSorted cl2 ∧
      cl2.Pairwise (fun r s => idOf r ≠ idOf s)) := by
  have hty : IsIdTy JsTy.numberTy := Or.inl rfl
  have hwf : WFColl [[("id", JVal.num 1)]] .numberTy := by
    refine ⟨List.pairwise_singleton _ _, ?_, ?_⟩
    · intro r hr
      rcases List.mem_singleton.mp hr with rfl
      exact ⟨.num 1, rfl, rfl⟩
    · intro r hr
      rcases List.mem_singleton.mp hr with rfl
      simp [NodupKeys]
  have hpayload : ∀ r ∈ [[("id", JVal.num 0)],
      [("id", JVal.num 1), ("x", JVal.str "y")]], WFRec r .numberTy := by
    intro r hr
    rcases List.mem_cons.mp hr with rfl | hr
    · exact ⟨by simp [NodupKeys], .num 0, rfl, rfl⟩
    · rcases List.mem_singleton.mp hr with rfl
      exact ⟨by simp [NodupKeys], .num 1, rfl, rfl⟩
  exact ⟨hty, hwf, hpayload, claim_C1 _ _ _ hty hwf hpayload⟩

theorem binarySearchIndex_ok (cl : Collection) (v : JVal) (key : String) :
    ∃ ro, binarySearchIndex cl (some v) key = .ok ro := by
  match cl with
  | [] => exact ⟨none, rfl⟩
  | r0 :: rest =>
      by_cases h : typeofOpt (getProp r0 key) ≠ typeofJs v
      · exact ⟨none, by simp [binarySearchIndex, h]⟩
      · exact ⟨some (searchLoopF (r0 :: rest) v key (r0 :: rest).length 0
          (r0 :: rest).length), by simp [binarySearchIndex, h]⟩

theorem binarySearch_ok (cl : Collection) (v : JVal) (key : String) :
    ∃ res, binarySearch cl (some v) key = .ok res := by
  obtain ⟨ro, hro⟩ := binarySearchIndex_ok cl v key
  rcases ro with _ | io
  · exact ⟨none, by simp only [binarySearch, hro]; rfl⟩
  · rcases io with _ | i
    · exact ⟨none, by simp only [binarySearch, hro]; rfl⟩
    · exact ⟨cl[i]?, by simp only [binarySearch, hro]; rfl⟩

/-- C5: For every defined value `v`: `_getInsertIndex` on a non-empty
array whose first element's key type differs from `typeof v` fails with
the TypeMismatch error, and on the empty array returns 0 without any
type check; whereas `_binarySearch`/`_binarySearchIndex` on an empty
array or under the same type mismatch returns "not found"
(`undefined`), and — for a defined value — never fails.  The asymmetry
between the two operations is exact. -/
theorem claim_C5 (v : JVal) :
    (getInsertIndex [] (some v) "id" = .ok 0) ∧
    (∀ r0 rest, typeofOpt (getProp r0 "id") ≠ typeofJs v →
      getInsertIndex (r0 :: rest) (some v) "id" = .error .typeMismatch) ∧
    (binarySearch [] (some v) "id" = .ok none) ∧
    (∀ r0 rest, typeofOpt (getProp r0 "id") ≠ typeofJs v →
      binarySearch (r0 :: rest) (some v) "id" = .ok none) ∧
    (∀ cl, ∃ res, binarySearch cl (some v) "id" = .ok res) := by
  refine ⟨rfl, ?_, rfl, ?_, fun cl => binarySearch_ok cl v "id"⟩
  · intro r0 rest h
    simp [getInsertIndex, h]
  · intro r0 rest h
    rw [show binarySearch (r0 :: rest) (some v) "id" =
      (do
        let ret ← binarySearchIndex (r0 :: rest) (some v) "id"
        match ret with
        | some (some i) => pure (r0 :: rest)[i]?
        | _ => pure none) from rfl, binarySearchIndex_mismatch "id" h]
    rfl

theorem claim_C5_witness :
    getInsertIndex [] (some (JVal.str "a")) "id" = .ok 0 ∧
    getInsertIndex [[("id", JVal.num 1)]] (some (JVal.str "a")) "id" =
      .error .typeMismatch ∧
    binarySearch [] (some (JVal.str "a")) "id" = .ok none ∧
    binarySearch [[("id", JVal.num 1)]] (some (JVal.str "a")) "id" =
      .ok none := by
  have h := claim_C5 (JVal.str "a")
  have hmis : typeofOpt (getProp [("id", JVal.num 1)] "id") ≠
      typeofJs (JVal.str "a") := by
    simp [getProp, typeofOpt, typeofJs]
  exact ⟨h.1, h.2.1 _ _ hmis, h.2.2.1, h.2.2.2.1 _ _ hmis⟩

/-- C8 (code bug): `addFactory` (lines 614-628) requires
`typeof factory === 'function'` in addition to a callable `create`, so a
plain object carrying a callable `create` method — which the claim, and
the function's own jsdoc (`@param {Function|Object} factory`), say is
accepted — is rejected with the InvalidFactory error.  A function value
carrying the same callable `create` is accepted and bound.  Evaluated on
a store with one collection "posts" and no bound factory. -/
theorem claim_C8_eval :
    addFactory ⟨[("posts", [])], []⟩ "posts"
      (.objVal [("create", JVal.fn 0)]) = .error .invalidFactory ∧
    typeofOpt (getPropF (.objVal [("create", JVal.fn 0)]) "create") =
      .functionTy ∧
    addFactory ⟨[("posts", [])], []⟩ "posts"
      (.fnVal [("create", JVal.fn 0)]) =
      .ok ⟨[("posts", [])], [("posts", .fnVal [("create", JVal.fn 0)])]⟩ :=
  ⟨rfl, rfl, rfl⟩

/-- C4 (code bug): `removeModels` (lines 1007-1032) reads
`this._binarySearchIndex(collection, models[i].id).idx`; on an empty
collection `_binarySearchIndex` returns bare `undefined`, so the `.idx`
access raises a TypeError instead of silently skipping the absent
record.  The same happens when earlier removals empty the collection
mid-loop.  On a non-empty collection an absent id is skipped silently,
as the `idx !== void 0` guard intends. -/
theorem claim_C4_eval :
    removeModelsGo [] [[("id", JVal.num 1)]] = .error .jsTypeError ∧
    removeModelsGo [[("id", JVal.num 1)]]
      [[("id", JVal.num 1)], [("id", JVal.num 2)]] = .error .jsTypeError ∧
    removeModelsGo [[("id", JVal.num 1)]] [[("id", JVal.num 2)]] =
      .ok ([], [[("id", JVal.num 1)]]) :=
  ⟨rfl, rfl, rfl⟩

/-- C10: the read-only operations `all(name)`, `all(name, key, val)`,
`find(name, key, val)` and `sortBy(name, key)` leave the stored
collection unchanged — they return freshly built results (`slice`,
`filter`, or a sorted copy), so the stored collection's contents and
order after the call equal those before it, even when `sortBy` sorts by
a key other than `id`; the full-collection query returns a copy of the
collection and the sorted view is a permutation of it. -/
theorem claim_C10 (cl : Collection) (key : String) (k v : Option JVal) :
    (allOp cl none none).2 = cl ∧
    (allOp cl k v).2 = cl ∧
    (findOp cl k v).2 = cl ∧
    (sortByOp cl key).2 = cl ∧
    (allOp cl none none).1 = .ok cl ∧
    ((sortByOp cl key).1).Perm cl := by
  refine ⟨rfl, rfl, rfl, rfl, rfl, ?_⟩
  simp only [sortByOp]
  split
  · split
    · exact List.mergeSort_perm _ _
    · exact List.mergeSort_perm _ _
  · exact List.Perm.refl _

theorem lastVal_foldl (k : String) :
    ∀ (objs : List JVal) (acc : Option JVal),
      objs.foldl
        (fun acc s =>
          match s with
          | .obj sf =>
            match getProp sf k with
            | some v => some v
            | none => acc
          | _ => acc)
        acc =
      match lastVal objs k with
      | some v => some v
      | none => acc := by
  intro objs
  induction objs with
  | nil => intro acc; simp [lastVal]
  | cons s rest ih =>
      intro acc
      rw [List.foldl_cons, ih]
      rw [show lastVal (s :: rest) k =
        rest.foldl
          (fun acc s =>
            match s with
            | .obj sf =>
              match getProp sf k with
              | some v => some v
              | none => acc
            | _ => acc)
          (match s with
            | .obj sf =>
              match getProp sf k with
              | some v => some v
              | none => none
            | _ => none) from rfl, ih]
      rcases hl : lastVal rest k with _ | w
      · rcases s with n | st | b | _ | t | l | sf
        · rfl
        · rfl
        · rfl
        · rfl
        · rfl
        · rfl
        · rcases hg : getProp sf k with _ | v <;> simp [hg]
      · rfl

theorem lastVal_cons (s : JVal) (rest : List JVal) (k : String) :
    lastVal (s :: rest) k =
      match lastVal rest k with
      | some v => some v
      | none =>
        match s with
        | .obj sf => getProp sf k
        | _ => none := by
  have h0 : lastVal (s :: rest) k =
      rest.foldl
        (fun acc s =>
          match s with
          | .obj sf =>
            match getProp sf k with
            | some v => some v
            | none => acc
          | _ => acc)
        (match s with
          | .obj sf =>
            match getProp sf k with
            | some v => some v
            | none => none
          | _ => none) := rfl
  rw [h0, lastVal_foldl k rest]
  rcases hl : lastVal rest k with _ | w
  · rcases s with n | st | b | _ | t | l | sf
    · rfl
    · rfl
    · rfl
    · rfl
    · rfl
    · rfl
    · show (match getProp sf k with
        | some v => some v
        | none => none) = getProp sf k
      rcases getProp sf k with _ | v
      · rfl
      · rfl
  · rfl

theorem mergeFold_getProp {objs : List JVal}
    (hnds : ∀ s ∈ objs, ∀ sf, s = .obj sf → NodupKeys sf) :
    ∀ (fs : Rec) (k : String),
      getProp (objs.foldl
        (fun acc s =>
          match s with
          | .obj sf => mergeFields acc sf
          | _ => acc) fs) k =
      match lastVal objs k with
      | some v => some (deepCopy v)
      | none => getProp fs k := by
  induction objs with
  | nil => intro fs k; simp [lastVal]
  | cons s rest ih =>
      intro fs k
      rw [List.foldl_cons,
        ih (fun x hx => hnds x (List.mem_cons_of_mem _ hx)),
        lastVal_cons]
      rcases hl : lastVal rest k with _ | w
      · rcases s with n | st | b | _ | t | l | sf
        · rfl
        · rfl
        · rfl
        · rfl
        · rfl
        · rfl
        · have hgp := getProp_mergeFields
            (hnds (.obj sf) (List.mem_cons_self _ _) sf rfl) fs k
          rcases hg : getProp sf k with _ | v <;> simp [hgp, hg]
      · rfl

/-- C3: for a target record that is a plain keyed structure and an
argument-ordered list of sources, `_mergeObject` copies each object
source's own enumerable fields into the target field-by-field via
`deepCopy`, overwriting existing fields; later sources win over earlier
ones field-by-field (`lastVal` is the last object source's value for the
field), and fields not mentioned by any source are left unchanged.  A
target that is a sequence or a non-structure primitive is returned
unchanged (no-op).  The spec's concrete scenario evaluates exactly as
claimed. -/
theorem claim_C3 (fs : Rec) (objs : List JVal)
    (hnds : ∀ s ∈ objs, ∀ sf, s = .obj sf → NodupKeys sf) :
    (∃ gs, mergeObject (.obj fs) objs = .ok (.obj gs) ∧
      ∀ k, getProp gs k =
        match lastVal objs k with
        | some v => some (deepCopy v)
        | none => getProp fs k) ∧
    (∀ l, mergeObject (.arr l) objs = .ok (.arr l)) ∧
    (∀ n, mergeObject (.num n) objs = .ok (.num n)) ∧
    (∀ st, mergeObject (.str st) objs = .ok (.str st)) ∧
    (∀ b, mergeObject (.bool b) objs = .ok (.bool b)) ∧
    (∀ t, mergeObject (.fn t) objs = .ok (.fn t)) ∧
    mergeObject
        (.obj [("id", JVal.num 1), ("title", JVal.str "t1"),
          ("myAttr", JVal.str "old")])
        [.obj [("id", JVal.num 1), ("title", JVal.str "new"),
          ("newAttr", JVal.str "x")]] =
      .ok (.obj [("id", JVal.num 1), ("title", JVal.str "new"),
        ("myAttr", JVal.str "old"), ("newAttr", JVal.str "x")]) := by
  refine ⟨⟨_, rfl, fun k => mergeFold_getProp hnds fs k⟩,
    fun l => rfl, fun n => rfl, fun st => rfl, fun b => rfl, fun t => rfl,
    rfl⟩

theorem claim_C3_witness :
    (∀ s ∈ [JVal.obj [("id", JVal.num 1), ("title", JVal.str "new"),
        ("newAttr", JVal.str "x")]], ∀ sf, s = JVal.obj sf → NodupKeys sf) ∧
    (∃ gs, mergeObject
        (.obj [("id", JVal.num 1), ("title", JVal.str "t1"),
          ("myAttr", JVal.str "old")])
        [.obj [("id", JVal.num 1), ("title", JVal.str "new"),
          ("newAttr", JVal.str "x")]] = .ok (.obj gs) ∧
      ∀ k, getProp gs k =
        match lastVal [JVal.obj [("id", JVal.num 1),
          ("title", JVal.str "new"), ("newAttr", JVal.str "x")]] k with
        | some v => some (deepCopy v)
        | none => getProp [("id", JVal.num 1), ("title", JVal.str "t1"),
            ("myAttr", JVal.str "old")] k) := by
  have hnds : ∀ s ∈ [JVal.obj [("id", JVal.num 1), ("title", JVal.str "new"),
      ("newAttr", JVal.str "x")]], ∀ sf, s = JVal.obj sf → NodupKeys sf := by
    intro s hs sf hsf
    rcases List.mem_singleton.mp hs with rfl
    obtain rfl : [("id", JVal.num 1), ("title", JVal.str "new"),
        ("newAttr", JVal.str "x")] = sf := by injection hsf
    simp [NodupKeys]
  exact ⟨hnds, (claim_C3 _ _ hnds).1⟩

theorem jsLtOpt_asymm {x y : Option JVal} (h : jsLtOpt x y = true) :
    jsLtOpt y x = false := by
  rcases x with _ | a <;> rcases y with _ | b <;>
    simp_all only [jsLtOpt]
  exact jsLt_asymm h

theorem keyList_length (cl : Collection) (key : String) :
    (keyList cl key).length = cl.length := by
  simp [keyList]

theorem keyList_getElem {cl : Collection} {key : String} {i : Nat}
    (hik : i < (keyList cl key).length) :
    (keyList cl key)[i] = keyAt cl key i := by
  have hi : i < cl.length := by simpa [keyList] using hik
  simp [keyList, keyAt_eq hi]

theorem optSortedLe_indexed {cl : Collection} {key : String}
    (h : OptSortedLe (keyList cl key)) :
    ∀ i j, i < j → j < cl.length →
      jsLtOpt (keyAt cl key j) (keyAt cl key i) = false := by
  intro i j hij hj
  have hi : i < cl.length := lt_trans hij hj
  have hp := List.pairwise_iff_getElem.mp h i j
    (by simpa [keyList] using hi) (by simpa [keyList] using hj) hij
  rwa [keyList_getElem (by simpa [keyList] using hj),
    keyList_getElem (by simpa [keyList] using hi)] at hp

theorem insKeepsSorted_intro {cl : Collection} {key : String} {v : JVal}
    {idx : Nat}
    (hsorted : OptSortedLe (keyList cl key))
    (hbef : ∀ i, i < idx → i < cl.length →
      jsLtOpt (some v) (keyAt cl key i) = false)
    (haft : ∀ i, idx ≤ i → i < cl.length →
      jsLtOpt (some v) (keyAt cl key i) = true) :
    InsKeepsSorted cl key v idx := by
  rw [InsKeepsSorted, OptSortedLe, List.pairwise_append]
  refine ⟨hsorted.sublist (List.take_sublist _ _), ?_, ?_⟩
  · rw [List.pairwise_cons]
    refine ⟨?_, hsorted.sublist (List.drop_sublist _ _)⟩
    intro b hb
    obtain ⟨i, hi, hidxi, hieq⟩ := mem_drop_getElem hb
    have hlen : i < cl.length := by simpa [keyList] using hi
    rw [← hieq, keyList_getElem hi]
    exact jsLtOpt_asymm (haft i hidxi hlen)
  · intro a ha b hb
    obtain ⟨i, hi, hiidx, hieq⟩ := mem_take_getElem ha
    have hleni : i < cl.length := by simpa [keyList] using hi
    rcases List.mem_cons.mp hb with rfl | hb
    · rw [← hieq, keyList_getElem hi]
      exact hbef i hiidx hleni
    · obtain ⟨i2, hi2, hidxi2, hieq2⟩ := mem_drop_getElem hb
      have hleni2 : i2 < cl.length := by simpa [keyList] using hi2
      rw [← hieq, ← hieq2, keyList_getElem hi, keyList_getElem hi2]
      exact optSortedLe_indexed hsorted i i2 (by omega) hleni2

theorem insKeepsSorted_le {cl : Collection} {key : String} {v : JVal}
    {idx j : Nat} (hjle : j ≤ cl.length) (hidxlt : idx < cl.length)
    (hvlt : jsLtOpt (some v) (keyAt cl key idx) = true) (hij : idx < j)
    (hins : InsKeepsSorted cl key v j) : False := by
  rw [InsKeepsSorted, OptSortedLe] at hins
  have hlt : (keyList cl key).take j =
      (keyList cl key).take j := rfl
  have hlentake : ((keyList cl key).take j).length = j := by
    simp [keyList]
    omega
  have hlen : ((keyList cl key).take j ++
      some v :: (keyList cl key).drop j).length = cl.length + 1 := by
    simp [keyList]
    omega
  have hp := List.pairwise_iff_getElem.mp hins idx j
    (by omega) (by omega) hij
  have hbidx : idx < ((keyList cl key).take j ++
      some v :: (keyList cl key).drop j).length := by omega
  have hbj : j < ((keyList cl key).take j ++
      some v :: (keyList cl key).drop j).length := by omega
  have hidx2 : ((keyList cl key).take j ++
      some v :: (keyList cl key).drop j)[idx] =
      keyAt cl key idx := by
    rw [List.getElem_append_left (by omega)]
    rw [List.getElem_take]
    exact keyList_getElem (by simpa [keyList] using hidxlt)
  have hjv : ((keyList cl key).take j ++
      some v :: (keyList cl key).drop j)[j] = some v := by
    rw [List.getElem_append_right (by omega)]
    simp [hlentake]
  rw [hidx2, hjv] at hp
  rw [hp] at hvlt
  cases hvlt

/-- C2: on a sequence sorted ascending by `key` with defined,
homogeneously typed key values, `_getInsertIndex` returns the rightmost
index `idx` (0 ≤ idx ≤ |S|) such that inserting a record whose `key`
equals `v` at `idx` preserves the sort order — it preserves the order
there, and every other order-preserving position is at or before `idx`
(ties move rightward).  On the empty sequence it returns 0 for any
defined value, and on the spec's collection with numeric ids
`[1,2,3,4,5]` it returns `i` for `v = i`, 0 for `v = 0` and `|S| = 5`
for `v = 6`. -/
theorem claim_C2 (cl : Collection) (v : JVal) (key : String) (ty : JsTy)
    (_hty : IsIdTy ty) (hvty : typeofJs v = ty)
    (hsorted : OptSortedLe (keyList cl key))
    (htyped : ∀ r ∈ cl, ∃ p, getProp r key = some p ∧ typeofJs p = ty) :
    (∃ idx, getInsertIndex cl (some v) key = .ok idx ∧ idx ≤ cl.length ∧
      InsKeepsSorted cl key v idx ∧
      (∀ j, j ≤ cl.length → InsKeepsSorted cl key v j → j ≤ idx)) ∧
    (∀ w : JVal, getInsertIndex [] (some w) key = .ok 0) ∧
    getInsertIndex sampleIds (some (JVal.num 0)) "id" = .ok 0 ∧
    getInsertIndex sampleIds (some (JVal.num 1)) "id" = .ok 1 ∧
    getInsertIndex sampleIds (some (JVal.num 2)) "id" = .ok 2 ∧
    getInsertIndex sampleIds (some (JVal.num 3)) "id" = .ok 3 ∧
    getInsertIndex sampleIds (some (JVal.num 4)) "id" = .ok 4 ∧
    getInsertIndex sampleIds (some (JVal.num 5)) "id" = .ok 5 ∧
    getInsertIndex sampleIds (some (JVal.num 6)) "id" =
      .ok sampleIds.length := by
  refine ⟨?_, fun w => rfl, rfl, rfl, rfl, rfl, rfl, rfl, rfl⟩
  have htypedIdx : ∀ i, i < cl.length →
      ∃ p, keyAt cl key i = some p ∧ typeofJs p = typeofJs v := by
    intro i hi
    obtain ⟨p, hp, hpty⟩ := htyped (cl[i]) (List.getElem_mem hi)
    exact ⟨p, by rw [keyAt_eq hi]; exact hp, by rw [hpty, hvty]⟩
  obtain ⟨idx, hgi, hidx, hbef, haft⟩ :=
    getInsertIndex_spec cl v key (optSortedLe_indexed hsorted) htypedIdx
  refine ⟨idx, hgi, hidx,
    insKeepsSorted_intro hsorted (fun i hi _ => hbef i hi) haft, ?_⟩
  intro j hj hins
  by_contra hcon
  push_neg at hcon
  have hidxlt : idx < cl.length := by omega
  exact insKeepsSorted_le hj hidxlt (haft idx (le_refl _) hidxlt) hcon hins

theorem claim_C2_witness :
    IsIdTy .numberTy ∧
    OptSortedLe (keyList [[("id", JVal.num 1)]] "id") ∧
    (∀ r ∈ [[("id", JVal.num 1)]],
      ∃ p, getProp r "id" = some p ∧ typeofJs p = .numberTy) ∧
    ((∃ idx, getInsertIndex [[("id", JVal.num 1)]]
        (some (JVal.num 2)) "id" = .ok idx ∧
        idx ≤ ([[("id", JVal.num 1)]] : Collection).length ∧
        InsKeepsSorted [[("id", JVal.num 1)]] "id" (JVal.num 2) idx ∧
        (∀ j, j ≤ ([[("id", JVal.num 1)]] : Collection).length →
          InsKeepsSorted [[("id", JVal.num 1)]] "id" (JVal.num 2) j →
          j ≤ idx)) ∧
      (∀ w : JVal, getInsertIndex [] (some w) "id" = .ok 0) ∧
      getInsertIndex sampleIds (some (JVal.num 0)) "id" = .ok 0 ∧
      getInsertIndex sampleIds (some (JVal.num 1)) "id" = .ok 1 ∧
      getInsertIndex sampleIds (some (JVal.num 2)) "id" = .ok 2 ∧
      getInsertIndex sampleIds (some (JVal.num 3)) "id" = .ok 3 ∧
      getInsertIndex sampleIds (some (JVal.num 4)) "id" = .ok 4 ∧
      getInsertIndex sampleIds (some (JVal.num 5)) "id" = .ok 5 ∧
      getInsertIndex sampleIds (some (JVal.num 6)) "id" =
        .ok sampleIds.length) := by
  have hty : IsIdTy JsTy.numberTy := Or.inl rfl
  have hsorted : OptSortedLe (keyList [[("id", JVal.num 1)]] "id") := by
    rw [OptSortedLe]
    exact List.pairwise_singleton _ _
  have htyped : ∀ r ∈ [[("id", JVal.num 1)]],
      ∃ p, getProp r "id" = some p ∧ typeofJs p = JsTy.numberTy := by
    intro r hr
    rcases List.mem_singleton.mp hr with rfl
    exact ⟨.num 1, rfl, rfl⟩
  exact ⟨hty, hsorted, htyped,
    claim_C2 [[("id", JVal.num 1)]] (JVal.num 2) "id" .numberTy hty rfl
      hsorted htyped⟩

/-! ## The tagged deep-copy model (container identity) -/

mutual
theorem deepCopyH_tags_range : ∀ (v : HVal) (c : Nat),
    c ≤ (deepCopyH v c).2 ∧
    ∀ t ∈ tagsH (deepCopyH v c).1, c ≤ t ∧ t < (deepCopyH v c).2
  | .num _, c => ⟨le_refl _, by simp [deepCopyH, tagsH]⟩
  | .str _, c => ⟨le_refl _, by simp [deepCopyH, tagsH]⟩
  | .bool _, c => ⟨le_refl _, by simp [deepCopyH, tagsH]⟩
  | .fn _, c => ⟨le_refl _, by simp [deepCopyH, tagsH]⟩
  | .null, c => ⟨by simp [deepCopyH], by simp [deepCopyH, tagsH, tagsHFields]⟩
  | .arr tg l, c => by
      have hl := deepCopyHList_tags_range l (c + 1)
      simp only [deepCopyH, tagsH]
      refine ⟨by omega, ?_⟩
      intro t ht
      rcases List.mem_cons.mp ht with rfl | ht
      · omega
      · have := hl.2 t ht
        omega
  | .obj tg fs, c => by
      have hl := deepCopyHFields_tags_range fs (c + 1)
      simp only [deepCopyH, tagsH]
      refine ⟨by omega, ?_⟩
      intro t ht
      rcases List.mem_cons.mp ht with rfl | ht
      · omega
      · have := hl.2 t ht
        omega

theorem deepCopyHList_tags_range : ∀ (l : List HVal) (c : Nat),
    c ≤ (deepCopyHList l c).2 ∧
    ∀ t ∈ tagsHList (deepCopyHList l c).1, c ≤ t ∧ t < (deepCopyHList l c).2
  | [], c => ⟨le_refl _, by simp [deepCopyHList, tagsHList]⟩
  | v :: vs, c => by
      have hv := deepCopyH_tags_range v c
      have hvs := deepCopyHList_tags_range vs (deepCopyH v c).2
      simp only [deepCopyHList, tagsHList]
      refine ⟨by omega, ?_⟩
      intro t ht
      rcases List.mem_append.mp ht with ht | ht
      · have := hv.2 t ht
        omega
      · have := hvs.2 t ht
        omega

theorem deepCopyHFields_tags_range : ∀ (fs : List (String × HVal)) (c : Nat),
    c ≤ (deepCopyHFields fs c).2 ∧
    ∀ t ∈ tagsHFields (deepCopyHFields fs c).1,
      c ≤ t ∧ t < (deepCopyHFields fs c).2
  | [], c => ⟨le_refl _, by simp [deepCopyHFields, tagsHFields]⟩
  | (k, v) :: fs, c => by
      have hv := deepCopyH_tags_range v c
      have hfs := deepCopyHFields_tags_range fs (deepCopyH v c).2
      simp only [deepCopyHFields, tagsHFields]
      refine ⟨by omega, ?_⟩
      intro t ht
      rcases List.mem_append.mp ht with ht | ht
      · have := hv.2 t ht
        omega
      · have := hfs.2 t ht
        omega
end

mutual
theorem deepCopyH_erase : ∀ (v : HVal) (c : Nat),
    eraseH (deepCopyH v c).1 = deepCopy (eraseH v)
  | .num _, _ => rfl
  | .str _, _ => rfl
  | .bool _, _ => rfl
  | .fn _, _ => rfl
  | .null, _ => rfl
  | .arr tg l, c => by
      simp only [deepCopyH, eraseH, deepCopy]
      rw [deepCopyHList_erase l (c + 1)]
  | .obj tg fs, c => by
      simp only [deepCopyH, eraseH, deepCopy]
      rw [deepCopyHFields_erase fs (c + 1)]

theorem deepCopyHList_erase : ∀ (l : List HVal) (c : Nat),
    eraseHList (deepCopyHList l c).1 = deepCopyList (eraseHList l)
  | [], _ => rfl
  | v :: vs, c => by
      simp only [deepCopyHList, eraseHList, deepCopyList]
      rw [deepCopyH_erase v c, deepCopyHList_erase vs (deepCopyH v c).2]

theorem deepCopyHFields_erase : ∀ (fs : List (String × HVal)) (c : Nat),
    eraseHFields (deepCopyHFields fs c).1 = deepCopyFields (eraseHFields fs)
  | [], _ => rfl
  | (k, v) :: fs, c => by
      simp only [deepCopyHFields, eraseHFields, deepCopyFields]
      rw [deepCopyH_erase v c, deepCopyHFields_erase fs (deepCopyH v c).2]
end

mutual
theorem setFieldAt_not_mem : ∀ (v : HVal) (tag : Nat) (k : String) (w : HVal),
    tag ∉ tagsH v → setFieldAt tag k w v = v
  | .num _, _, _, _, _ => rfl
  | .str _, _, _, _, _ => rfl
  | .bool _, _, _, _, _ => rfl
  | .fn _, _, _, _, _ => rfl
  | .null, _, _, _, _ => rfl
  | .arr t l, tag, k, w, h => by
      simp only [tagsH, List.mem_cons] at h
      push_neg at h
      simp only [setFieldAt]
      rw [setFieldAtList_not_mem l tag k w h.2]
  | .obj t fs, tag, k, w, h => by
      simp only [tagsH, List.mem_cons] at h
      push_neg at h
      simp only [setFieldAt]
      rw [setFieldAtFields_not_mem fs tag k w h.2, if_neg (fun he => h.1 he.symm)]

theorem setFieldAtList_not_mem :
    ∀ (l : List HVal) (tag : Nat) (k : String) (w : HVal),
      tag ∉ tagsHList l → setFieldAtList tag k w l = l
  | [], _, _, _, _ => rfl
  | v :: vs, tag, k, w, h => by
      simp only [tagsHList, List.mem_append] at h
      push_neg at h
      simp only [setFieldAtList]
      rw [setFieldAt_not_mem v tag k w h.1, setFieldAtList_not_mem vs tag k w h.2]

theorem setFieldAtFields_not_mem :
    ∀ (fs : List (String × HVal)) (tag : Nat) (k : String) (w : HVal),
      tag ∉ tagsHFields fs → setFieldAtFields tag k w fs = fs
  | [], _, _, _, _ => rfl
  | (k2, v) :: fs, tag, k, w, h => by
      simp only [tagsHFields, List.mem_append] at h
      push_neg at h
      simp only [setFieldAtFields]
      rw [setFieldAt_not_mem v tag k w h.1,
        setFieldAtFields_not_mem fs tag k w h.2]
end

/-- C7 (counterexample to the claim as stated): the claim lists `null`
among the non-container values copied as-is, but `deepCopy` (lines
704-724) sends `null` through the `typeof source === 'object'` branch
(`typeof null === 'object'`) and returns a new empty object, not
`null`. -/
theorem claim_C7_counterexample :
    deepCopy JVal.null = JVal.obj [] ∧ JVal.obj [] ≠ JVal.null :=
  ⟨rfl, fun h => JVal.noConfusion h⟩

/-- C7 (amended): for every source value whose container cells all
predate the allocation counter `c`, the copy `deepCopy` produces is a
recursive duplicate sharing no mutable state with the source: every
container cell of the copy is freshly allocated (tag at least `c`, so
disjoint from the source's), and mutating any cell of the source —
assigning a field on any of the source's tags — leaves the copy
unchanged.  Erasing identity, the copy's value equals the plain
`deepCopy` of the source's value.  Numbers, strings, booleans and
functions are copied as-is with no allocation, while `null` (classified
as a keyed structure by the dynamic type test) is copied as a freshly
allocated empty keyed structure rather than as-is. -/
theorem claim_C7 (v : HVal) (c : Nat) (hfresh : ∀ t ∈ tagsH v, t < c) :
    (∀ t ∈ tagsH (deepCopyH v c).1, c ≤ t) ∧
    (∀ t k w, t ∈ tagsH v →
      setFieldAt t k w (deepCopyH v c).1 = (deepCopyH v c).1) ∧
    eraseH (deepCopyH v c).1 = deepCopy (eraseH v) ∧
    (∀ n c2, deepCopyH (.num n) c2 = (.num n, c2)) ∧
    (∀ s c2, deepCopyH (.str s) c2 = (.str s, c2)) ∧
    (∀ b c2, deepCopyH (.bool b) c2 = (.bool b, c2)) ∧
    (∀ tk c2, deepCopyH (.fn tk) c2 = (.fn tk, c2)) ∧
    (∀ c2, deepCopyH .null c2 = (.obj c2 [], c2 + 1)) := by
  have hrange := deepCopyH_tags_range v c
  refine ⟨fun t ht => (hrange.2 t ht).1, ?_, deepCopyH_erase v c,
    fun n c2 => rfl, fun s c2 => rfl, fun b c2 => rfl, fun tk c2 => rfl,
    fun c2 => rfl⟩
  intro t k w ht
  apply setFieldAt_not_mem
  intro hmem
  have h1 := hfresh t ht
  have h2 := (hrange.2 t hmem).1
  omega

theorem claim_C7_witness :
    (∀ t ∈ tagsH (.obj 0 [("a", HVal.num 1)]), t < 1) ∧
    (∀ t ∈ tagsH (deepCopyH (.obj 0 [("a", HVal.num 1)]) 1).1, 1 ≤ t) ∧
    (∀ t k w, t ∈ tagsH (.obj 0 [("a", HVal.num 1)]) →
      setFieldAt t k w (deepCopyH (.obj 0 [("a", HVal.num 1)]) 1).1 =
        (deepCopyH (.obj 0 [("a", HVal.num 1)]) 1).1) ∧
    eraseH (deepCopyH (.obj 0 [("a", HVal.num 1)]) 1).1 =
      deepCopy (eraseH (.obj 0 [("a", HVal.num 1)])) := by
  have hfresh : ∀ t ∈ tagsH (.obj 0 [("a", HVal.num 1)]), t < 1 := by
    intro t ht
    simp only [tagsH, tagsHFields, List.mem_cons] at ht
    rcases ht with rfl | ht
    · omega
    · simp [tagsH, List.mem_append] at ht
  have h := claim_C7 (.obj 0 [("a", HVal.num 1)]) 1 hfresh
  exact ⟨hfresh, h.1, h.2.1, h.2.2.1⟩

/-! ## Loading the same record twice -/

theorem getProp_map_deepCopy (r : Rec) (k : String) :
    getProp (r.map (fun p => (p.1, deepCopy p.2))) k =
      (getProp r k).map deepCopy := by
  induction r with
  | nil => rfl
  | cons p rest ih =>
      by_cases hk : p.1 = k
      · simp [getProp, hk]
      · simp [getProp, hk, ih]

theorem getProp_cloneRec {r : Rec} (hnd : NodupKeys r) (k : String) :
    getProp (cloneRec r) k = (getProp r k).map deepCopy := by
  rw [cloneRec_eq_map hnd, getProp_map_deepCopy]

theorem idOf_cloneRec {r : Rec} (hnd : NodupKeys r) {p : JVal}
    (hp : idOf r = some p) (hid : IsIdTy (typeofJs p)) :
    idOf (cloneRec r) = some p := by
  rw [idOf, getProp_cloneRec hnd, show getProp r "id" = idOf r from rfl, hp]
  simp [deepCopy_of_idTy hid]

theorem NodupKeys_cloneRec {r : Rec} (hnd : NodupKeys r) :
    NodupKeys (cloneRec r) := by
  rw [NodupKeys, cloneRec_eq_map hnd, List.map_map]
  exact hnd

theorem WFRec_cloneRec {r : Rec} {ty : JsTy} (hty : IsIdTy ty)
    (hrec : WFRec r ty) : WFRec (cloneRec r) ty := by
  obtain ⟨hnd, p, hp, hpty⟩ := hrec
  exact ⟨NodupKeys_cloneRec hnd,
    p, idOf_cloneRec hnd hp (by rw [hpty]; exact hty), hpty⟩

theorem cloneRec_deepCopy_vals {r : Rec} (hnd : NodupKeys r) :
    ∀ q ∈ cloneRec r, deepCopy q.2 = q.2 := by
  intro q hq
  rw [cloneRec_eq_map hnd] at hq
  rcases List.mem_map.mp hq with ⟨p, _, rfl⟩
  exact deepCopy_idem p.2

theorem getProp_some_mem {r : Rec} {k : String} {v : JVal}
    (h : getProp r k = some v) : (k, v) ∈ r := by
  induction r with
  | nil => simp [getProp] at h
  | cons p rest ih =>
      by_cases hk : p.1 = k
      · simp only [getProp, hk, if_true, Option.some.injEq] at h
        subst h
        rw [← hk]
        exact List.mem_cons_self _ _
      · simp only [getProp, hk, if_false] at h
        exact List.mem_cons_of_mem _ (ih h)

theorem list_set_getElem_self {α : Type} (l : List α) (i : Nat)
    (hi : i < l.length) : l.set i (l[i]) = l := by
  apply List.ext_getElem
  · simp
  · intro n h1 h2
    rw [List.getElem_set]
    by_cases hn : i = n
    · subst hn
      rw [if_pos rfl]
    · rw [if_neg hn]

theorem pushModels_singleton (cl : Collection) (x : Rec) :
    pushModels cl [x] = pushOne cl x := by
  rw [pushModels, List.foldlM_cons]
  cases hres : pushOne cl x <;> simp [hres, List.foldlM_nil]

/-- After `_pushModels` processes one record whose field values are
deep-copy-stable (as the records built by `createModelOfType` are), the
collection holds a record with the incoming identifier whose fields
subsume the incoming deep-copied fields; if the identifier was absent
the stored record is exactly the incoming one. -/
theorem pushOne_stored {cl : Collection} {ty : JsTy} (hty : IsIdTy ty)
    (hwf : WFColl cl ty) {item : Rec} (hitem : WFRec item ty) {p : JVal}
    (hp : idOf item = some p)
    (hdc : ∀ q ∈ item, deepCopy q.2 = q.2) :
    ∃ cl1, pushOne cl item = .ok cl1 ∧ WFColl cl1 ty ∧
      ∃ j, ∃ hj : j < cl1.length, idOf (cl1[j]) = some p ∧
        (∀ q ∈ item, getProp (cl1[j]) q.1 = some (deepCopy q.2)) ∧
        ((∀ s ∈ cl, idOf s ≠ some p) → cl1[j] = item) := by
  have hndi : NodupKeys item := hitem.1
  have hidp : IsIdTy (typeofJs p) := by
    obtain ⟨_, p2, hp2, hp2ty⟩ := hitem
    rw [hp2] at hp
    obtain rfl : p2 = p := by injection hp
    rw [hp2ty]
    exact hty
  obtain ⟨cl1, hpo, hwf1, hbr⟩ := pushOne_spec hty hwf hitem
  refine ⟨cl1, hpo, hwf1, ?_⟩
  rcases hbr with ⟨j0, hj0, hidj0, hset⟩ | ⟨hne, idx, hidx, hins⟩
  · -- merged in place at j0
    subst hset
    have hgd : cl.getD j0 [] = cl[j0] := by
      rw [List.getD_eq_getElem?_getD, List.getElem?_eq_getElem hj0]
      rfl
    have hj0' : j0 < (cl.set j0 (mergeFields (cl.getD j0 []) item)).length := by
      simpa using hj0
    have hstored :
        (cl.set j0 (mergeFields (cl.getD j0 []) item))[j0] =
          mergeFields (cl[j0]) item := by
      rw [List.getElem_set, if_pos rfl, hgd]
    refine ⟨j0, hj0', ?_, ?_, ?_⟩
    · rw [hstored]
      exact idOf_mergeFields hndi hp hidp
    · intro q hq
      rw [hstored]
      have := getProp_mergeFields hndi (cl[j0]) q.1
      rw [this, getProp_mem_of_nodup hndi hq]
    · intro hfresh
      exact absurd (hidj0.trans hp)
        (hfresh (cl[j0]) (List.getElem_mem hj0))
  · -- inserted at idx
    subst hins
    have htklen : (cl.take idx).length = idx := by
      simp
      omega
    have hidx' : idx <
        (cl.take idx ++ item :: cl.drop idx).length := by
      simp
      omega
    have hstored :
        (cl.take idx ++ item :: cl.drop idx)[idx] = item := by
      rw [List.getElem_append_right (by omega)]
      simp [htklen]
    refine ⟨idx, hidx', ?_, ?_, fun _ => hstored⟩
    · rw [hstored]
      exact hp
    · intro q hq
      rw [hstored, getProp_mem_of_nodup hndi hq, hdc q hq]

/-- Pushing a record whose identifier is already stored, with all its
deep-copied fields already present on the stored record, changes
nothing: the merge rewrites each field with the value it already has. -/
theorem pushOne_stable {cl1 : Collection} {ty : JsTy} (hty : IsIdTy ty)
    (hwf1 : WFColl cl1 ty) {item : Rec} (hitem : WFRec item ty) {p : JVal}
    (hp : idOf item = some p) {j : Nat} (hj : j < cl1.length)
    (hidj : idOf (cl1[j]) = some p)
    (hflds : ∀ q ∈ item, getProp (cl1[j]) q.1 = some (deepCopy q.2)) :
    pushOne cl1 item = .ok cl1 := by
  have hndi : NodupKeys item := hitem.1
  obtain ⟨cl2, hpo, _, hbr⟩ := pushOne_spec hty hwf1 hitem
  rcases hbr with ⟨j1, hj1, hidj1, hset⟩ | ⟨hne, _⟩
  · have hj1j : j1 = j := by
      apply IdSorted_id_unique hwf1.1 hj1 hj
      · rw [← idOf_eq_keyAt hj1, hidj1, hp]
      · rw [← idOf_eq_keyAt hj, hidj]
    subst hj1j
    have hgd : cl1.getD j1 [] = cl1[j1] := by
      rw [List.getD_eq_getElem?_getD, List.getElem?_eq_getElem hj1]
      rfl
    rw [hgd, mergeFields_stable hndi hflds,
      list_set_getElem_self cl1 j1 hj1] at hset
    rw [hpo, hset]
  · exact absurd hidj
      (by
        have := hne (cl1[j]) (List.getElem_mem hj)
        rw [hp] at this
        exact this)

/-- C6 (counterexample to the claim as stated): loading the same record
twice into a collection that already holds a record with the same id
but an extra field yields one record whose fields are NOT equal to the
last-loaded version's fields — the pre-existing "extra" field survives
the field-wise merge.  Here the collection holds the record with fields
id:1, extra:5; loading the record with the single field id:1 twice
leaves the stored record unchanged, and its fields differ from the
loaded record's. -/
theorem claim_C6_counterexample :
    (do
      let c1 ← loadRecords [[("id", JVal.num 1), ("extra", JVal.num 5)]]
        [[("id", JVal.num 1)]]
      loadRecords c1 [[("id", JVal.num 1)]]) =
      .ok [[("id", JVal.num 1), ("extra", JVal.num 5)]] ∧
    getProp [("id", JVal.num 1), ("extra", JVal.num 5)] "extra" =
      some (JVal.num 5) ∧
    getProp [("id", JVal.num 1)] "extra" = none ∧
    [("id", JVal.num 1), ("extra", JVal.num 5)] ≠
      ([("id", JVal.num 1)] : Rec) :=
  ⟨rfl, rfl, rfl, by simp⟩

/-- C6 (amended): loading a record `r` twice in succession yields a
collection containing exactly one record with `r`'s id; the second load
merges field-wise into the existing stored record instead of inserting
a duplicate — it leaves the collection exactly unchanged — and the
stored record carries every field of `r` with its (deep-copied)
last-loaded value.  Fields of a pre-existing record with the same id
that `r` does not mention survive; when no record with `r`'s id was
present, the stored record is exactly the loaded copy of `r`. -/
theorem claim_C6 (cl : Collection) (r : Rec) (ty : JsTy)
    (hty : IsIdTy ty) (hwf : WFColl cl ty) (hrec : WFRec r ty) :
    ∃ cl1, loadRecords cl [r] = .ok cl1 ∧ loadRecords cl1 [r] = .ok cl1 ∧
      ∃ p, idOf r = some p ∧
        ∃ j, ∃ hj : j < cl1.length, idOf (cl1[j]) = some p ∧
          (∀ i, ∀ hi : i < cl1.length, idOf (cl1[i]) = some p → i = j) ∧
          (∀ k v, getProp r k = some v →
            getProp (cl1[j]) k = some (deepCopy v)) ∧
          ((∀ s ∈ cl, idOf s ≠ some p) → cl1[j] = cloneRec r) := by
  obtain ⟨hnd, p, hp, hpty⟩ := hrec
  have hidp : IsIdTy (typeofJs p) := by
    rw [hpty]
    exact hty
  have hclrec : WFRec (cloneRec r) ty := WFRec_cloneRec hty ⟨hnd, p, hp, hpty⟩
  have hdc := cloneRec_deepCopy_vals hnd
  have hidcl : idOf (cloneRec r) = some p := idOf_cloneRec hnd hp hidp
  have hlr : ∀ c : Collection, loadRecords c [r] = pushOne c (cloneRec r) := by
    intro c
    rw [loadRecords, List.map_cons, List.map_nil, pushModels_singleton]
  obtain ⟨cl1, hpo, hwf1, j, hj, hidj, hflds, hfreshcase⟩ :=
    pushOne_stored hty hwf hclrec hidcl hdc
  have hstab := pushOne_stable hty hwf1 hclrec hidcl hj hidj hflds
  refine ⟨cl1, by rw [hlr, hpo], by rw [hlr, hstab], p, hp, j, hj, hidj,
    ?_, ?_, hfreshcase⟩
  · intro i hi hidi
    exact IdSorted_id_unique hwf1.1 hi hj
      (by rw [← idOf_eq_keyAt hi, hidi])
      (by rw [← idOf_eq_keyAt hj, hidj])
  · intro k v hkv
    have hqmem : (k, deepCopy v) ∈ cloneRec r := by
      rw [cloneRec_eq_map hnd]
      exact List.mem_map.mpr ⟨(k, v), getProp_some_mem hkv, rfl⟩
    have hq := hflds (k, deepCopy v) hqmem
    simp only at hq
    rw [deepCopy_idem] at hq
    exact hq

theorem claim_C6_witness :
    IsIdTy .numberTy ∧
    WFColl [] .numberTy ∧
    WFRec [("id", JVal.num 1), ("title", JVal.str "t")] .numberTy ∧
    (∃ cl1, loadRecords [] [[("id", JVal.num 1), ("title", JVal.str "t")]] =
        .ok cl1 ∧
      loadRecords cl1 [[("id", JVal.num 1), ("title", JVal.str "t")]] =
        .ok cl1 ∧
      ∃ p, idOf [("id", JVal.num 1), ("title", JVal.str "t")] = some p ∧
        ∃ j, ∃ hj : j < cl1.length, idOf (cl1[j]) = some p ∧
          (∀ i, ∀ hi : i < cl1.length, idOf (cl1[i]) = some p → i = j) ∧
          (∀ k v, getProp [("id", JVal.num 1), ("title", JVal.str "t")] k =
              some v → getProp (cl1[j]) k = some (deepCopy v)) ∧
          ((∀ s ∈ ([] : Collection), idOf s ≠ some p) →
            cl1[j] = cloneRec [("id", JVal.num 1), ("title", JVal.str "t")])) := by
  have hty : IsIdTy JsTy.numberTy := Or.inl rfl
  have hwf : WFColl [] .numberTy :=
    ⟨List.Pairwise.nil, fun r hr => absurd hr (List.not_mem_nil r),
      fun r hr => absurd hr (List.not_mem_nil r)⟩
  have hrec : WFRec [("id", JVal.num 1), ("title", JVal.str "t")]
      .numberTy := ⟨by simp [NodupKeys], .num 1, rfl, rfl⟩
  exact ⟨hty, hwf, hrec, claim_C6 [] _ .numberTy hty hwf hrec⟩

/-! ## Removal by query: `removeWhere` -/

theorem WFColl_nodup {cl : Collection} {ty : JsTy} (hwf : WFColl cl ty) :
    cl.Nodup := by
  have h := IdSorted_pairwise_ne hwf.1
  exact h.imp (fun hab heq => hab (by rw [heq]))

theorem WFColl_sublist {cl1 cl2 : Collection} {ty : JsTy}
    (hsub : cl1.Sublist cl2) (hwf : WFColl cl2 ty) : WFColl cl1 ty :=
  ⟨hwf.1.sublist hsub, fun r hr => hwf.2.1 r (hsub.mem hr),
    fun r hr => hwf.2.2 r (hsub.mem hr)⟩

theorem filter_not_mem_eraseIdx (P : Rec → Bool) :
    ∀ (cl : List Rec) (j : Nat) (hj : j < cl.length) (m : Rec),
      cl.Nodup → cl[j] = m →
      cl.filter (fun r => ! jbeqFields r m && P r) =
        (cl.eraseIdx j).filter P := by
  intro cl
  induction cl with
  | nil => intro j hj; exact absurd hj (by simp)
  | cons a tl ih =>
      intro j hj m hnd hjm
      rcases j with _ | k
      · have ham : a = m := hjm
        subst ham
        have htt : jbeqFields a a = true := (jbeqFields_iff a a).mpr rfl
        have hnotmem : a ∉ tl := (List.nodup_cons.mp hnd).1
        rw [List.eraseIdx_cons_zero]
        calc List.filter (fun r => ! jbeqFields r a && P r) (a :: tl)
            = List.filter (fun r => ! jbeqFields r a && P r) tl := by
              rw [List.filter_cons, htt]
              simp
          _ = List.filter P tl := List.filter_congr (fun x hx => by
              have hxa : jbeqFields x a = false := by
                rcases h : jbeqFields x a
                · rfl
                · exact absurd ((jbeqFields_iff x a).mp h ▸ hx) hnotmem
              rw [hxa]
              simp)
      · have hk : k < tl.length := by simpa using hj
        have htlm : tl[k] = m := hjm
        have hnd' := List.nodup_cons.mp hnd
        have ham : jbeqFields a m = false := by
          rcases h : jbeqFields a m
          · rfl
          · have haeq : a = m := (jbeqFields_iff a m).mp h
            subst haeq
            exact absurd (htlm ▸ List.getElem_mem hk) hnd'.1
        rw [List.eraseIdx_cons_succ, List.filter_cons, List.filter_cons, ham]
        simp only [Bool.not_false, Bool.true_and]
        rw [ih k hk m hnd'.2 htlm]

/-- What `_binarySearch` can return for a defined value: `undefined`,
or a record of the collection at some index. -/
theorem binarySearch_cases (cl : Collection) (v : JVal) (key : String) :
    binarySearch cl (some v) key = .ok none ∨
    ∃ i, ∃ h : i < cl.length,
      binarySearch cl (some v) key = .ok (some (cl[i])) := by
  obtain ⟨ro, hro⟩ := binarySearchIndex_ok cl v key
  rcases ro with _ | io
  · left
    simp only [binarySearch, hro]
    rfl
  · rcases io with _ | i
    · left
      simp only [binarySearch, hro]
      rfl
    · have h1 : binarySearch cl (some v) key = .ok (cl[i]?) := by
        simp only [binarySearch, hro]
        rfl
      by_cases hi : i < cl.length
      · right
        refine ⟨i, hi, ?_⟩
        rw [h1, List.getElem?_eq_getElem hi]
      · left
        rw [h1, List.getElem?_eq_none (by omega)]

/-- `all` with defined `key` and undefined `val` (lines 964-969) always
succeeds and yields at most one record, drawn from the collection. -/
theorem allQ_ok_sublist (cl : Collection) (key val : Option JVal) :
    ∃ ms, allQ cl key val = .ok ms ∧ ms.Sublist cl := by
  rcases val with _ | v
  · rcases key with _ | k
    · exact ⟨cl, rfl, List.Sublist.refl cl⟩
    · rcases binarySearch_cases cl k "id" with hbsr | ⟨i, hi, hbsr⟩
      · refine ⟨[], ?_, List.nil_sublist cl⟩
        simp only [allQ, hbsr]
        rfl
      · refine ⟨[cl[i]], ?_, List.singleton_sublist.mpr (List.getElem_mem hi)⟩
        simp only [allQ, hbsr]
        rfl
  · exact ⟨_, rfl, List.filter_sublist cl⟩

/-- A one-argument query (the value riding in the `key` slot, `val`
undefined) searches the `id` field: on a well-formed collection it
returns the record whose `id` equals the value when there is one, and
the empty list exactly when no record's `id` equals the value. -/
theorem allQ_single_id {cl : Collection} {ty : JsTy} (hty : IsIdTy ty)
    (hwf : WFColl cl ty) (v : JVal) :
    (∃ r, allQ cl (some v) none = .ok [r] ∧ r ∈ cl ∧ idOf r = some v) ∨
    (allQ cl (some v) none = .ok [] ∧ ∀ r ∈ cl, idOf r ≠ some v) := by
  by_cases hvty : typeofJs v = ty
  · rcases cl with _ | ⟨r0, rest⟩
    · exact Or.inr ⟨rfl, fun r hr => absurd hr (List.not_mem_nil r)⟩
    · have hid : IsIdTy (typeofJs v) := by
        rw [hvty]
        exact hty
      obtain ⟨ro, hbs, hfound, hnone⟩ := binarySearchIndex_spec (r0 :: rest)
        v "id" hid (IdSorted_keyAt hwf.1) (IdsTyped_keyAt hwf.2.1 hvty)
        (by simp)
      rcases ro with _ | j
      · right
        refine ⟨?_, ?_⟩
        · have hbsr : binarySearch (r0 :: rest) (some v) "id" = .ok none := by
            simp only [binarySearch, hbs]
            rfl
          simp only [allQ, hbsr]
          rfl
        · intro r hr heq
          obtain ⟨i, hi, hci⟩ := List.getElem_of_mem hr
          exact hnone rfl i hi (by rw [keyAt_eq hi, hci]; exact heq)
      · obtain ⟨hj, hkey⟩ := hfound j rfl
        left
        refine ⟨(r0 :: rest)[j], ?_, List.getElem_mem hj, ?_⟩
        · have hbsr : binarySearch (r0 :: rest) (some v) "id" =
              .ok (some ((r0 :: rest)[j])) := by
            have h1 : binarySearch (r0 :: rest) (some v) "id" =
                .ok ((r0 :: rest)[j]?) := by
              simp only [binarySearch, hbs]
              rfl
            rw [h1, List.getElem?_eq_getElem hj]
          simp only [allQ, hbsr]
          rfl
        · rw [idOf_eq_keyAt hj]
          exact hkey
  · right
    have hnotid : ∀ r ∈ cl, idOf r ≠ some v := by
      intro r hr heq
      obtain ⟨p, hp, hpty⟩ := hwf.2.1 r hr
      rw [hp] at heq
      injection heq with he
      exact hvty (he ▸ hpty)
    rcases cl with _ | ⟨r0, rest⟩
    · exact ⟨rfl, hnotid⟩
    · obtain ⟨p0, hp0, hp0ty⟩ := hwf.2.1 r0 (List.mem_cons_self _ _)
      have hg : typeofOpt (getProp r0 "id") ≠ typeofJs v := by
        rw [show getProp r0 "id" = idOf r0 from rfl, hp0]
        show typeofJs p0 ≠ typeofJs v
        intro h
        exact hvty (by rw [← h]; exact hp0ty)
      have hbsr : binarySearch (r0 :: rest) (some v) "id" = .ok none := by
        simp only [binarySearch, binarySearchIndex_mismatch "id" hg]
        rfl
      refine ⟨?_, hnotid⟩
      simp only [allQ, hbsr]
      rfl

/-- With at least one argument supplied, `removeWhere` takes the
query-then-remove path. -/
theorem removeWhere_args {cl : Collection} {key val : Option JVal}
    (h : key ≠ none ∨ val ≠ none) :
    removeWhere cl key val = (do
      let models ← allQ cl key val
      removeModelsGo cl models) := by
  rcases key with _ | k
  · rcases val with _ | v
    · rcases h with h | h <;> exact absurd rfl h
    · rfl
  · rfl

/-- The removal loop of `removeModels`, fed a duplicate-free selection
of records actually present in a well-formed collection, deletes
exactly those records (in selection order) and leaves the rest of the
collection, in order. -/
theorem removeModelsGo_sublist {ty : JsTy} (hty : IsIdTy ty) :
    ∀ (ms : List Rec) (cl : Collection), WFColl cl ty → ms.Sublist cl →
      removeModelsGo cl ms = .ok (ms, cl.filter (fun r => ! memRec r ms)) := by
  intro ms
  induction ms with
  | nil =>
      intro cl hwf _
      have hfe : cl.filter (fun r => ! memRec r ([] : List Rec)) = cl :=
        List.filter_eq_self.mpr (fun a _ => by simp [memRec])
      rw [hfe]
      rfl
  | cons m rest ih =>
      intro cl hwf hsub
      obtain ⟨r1, r2, hcl, hmr1, hrsub⟩ := List.cons_sublist_iff.mp hsub
      subst hcl
      have hmcl : m ∈ r1 ++ r2 := List.mem_append_left r2 hmr1
      obtain ⟨p, hpm, hpty⟩ := hwf.2.1 m hmcl
      have hidp : IsIdTy (typeofJs p) := by
        rw [hpty]
        exact hty
      have hclne : r1 ++ r2 ≠ [] := fun h => absurd (h ▸ hmcl)
        (List.not_mem_nil m)
      obtain ⟨ro, hbs, hfound, hnone⟩ := binarySearchIndex_spec (r1 ++ r2)
        p "id" hidp (IdSorted_keyAt hwf.1) (IdsTyped_keyAt hwf.2.1 hpty) hclne
      obtain ⟨i1, hi1, hr1i⟩ := List.getElem_of_mem hmr1
      have hi1cl : i1 < (r1 ++ r2).length := by
        rw [List.length_append]
        omega
      have hgeti1 : (r1 ++ r2)[i1] = m := by
        rw [List.getElem_append_left hi1]
        exact hr1i
      have hkeyi1 : keyAt (r1 ++ r2) "id" i1 = some p := by
        rw [keyAt_eq hi1cl, hgeti1]
        exact hpm
      rcases ro with _ | j
      · exact absurd hkeyi1 (hnone rfl i1 hi1cl)
      obtain ⟨hj, hkeyj⟩ := hfound j rfl
      obtain rfl : j = i1 := IdSorted_id_unique hwf.1 hj hi1cl hkeyj hkeyi1
      have hjm : (r1 ++ r2)[j] = m := hgeti1
      have herase : (r1 ++ r2).eraseIdx j = r1.eraseIdx j ++ r2 :=
        List.eraseIdx_append_of_lt_length hi1 r2
      have hsub2 : rest.Sublist ((r1 ++ r2).eraseIdx j) := by
        rw [herase]
        exact hrsub.trans (List.sublist_append_right _ _)
      have hwf2 : WFColl ((r1 ++ r2).eraseIdx j) ty :=
        WFColl_sublist (List.eraseIdx_sublist _ _) hwf
      have hih := ih ((r1 ++ r2).eraseIdx j) hwf2 hsub2
      have hnd : (r1 ++ r2).Nodup := WFColl_nodup hwf
      have hfilt : ((r1 ++ r2).eraseIdx j).filter (fun r => ! memRec r rest) =
          (r1 ++ r2).filter (fun r => ! memRec r (m :: rest)) := by
        rw [show (r1 ++ r2).filter (fun r => ! memRec r (m :: rest)) =
            (r1 ++ r2).filter (fun r => ! jbeqFields r m && ! memRec r rest)
          from List.filter_congr (fun x _ => by
            show (! memRec x (m :: rest)) = (! jbeqFields x m && ! memRec x rest)
            simp [memRec, List.any_cons, Bool.not_or])]
        exact (filter_not_mem_eraseIdx _ _ _ hj m hnd hjm).symm
      have hstep : removeModelsGo (r1 ++ r2) (m :: rest) =
          (removeModelsGo ((r1 ++ r2).eraseIdx j) rest) >>=
            (fun x => pure (((r1 ++ r2).getD j []) :: x.1, x.2)) := by
        rw [show removeModelsGo (r1 ++ r2) (m :: rest) = (do
            let ret ← binarySearchIndex (r1 ++ r2) (idOf m) "id"
            match ret with
            | none => (.error .jsTypeError : Except MErr (List Rec × Collection))
            | some none => removeModelsGo (r1 ++ r2) rest
            | some (some idx) =>
                (removeModelsGo ((r1 ++ r2).eraseIdx idx) rest) >>=
                  (fun x => pure (((r1 ++ r2).getD idx []) :: x.1, x.2)))
          from rfl, hpm, hbs]
        rfl
      rw [hstep, hih]
      show (Except.ok (((r1 ++ r2).getD j []) :: rest,
          ((r1 ++ r2).eraseIdx j).filter (fun r => ! memRec r rest)) :
          Except MErr (List Rec × Collection)) = _
      rw [List.getD_eq_getElem (r1 ++ r2) [] hj, hjm, hfilt]

/-- C9: `removeWhere` fails exactly when neither `key` nor `val` is
supplied (the ambiguous-removal error); with at least one argument it
succeeds on a well-formed collection, removing and returning exactly
the records the `all` query yields — the resulting collection is the
original minus those records, in order.  When called with only a value
(riding in the `key` slot, `val` undefined) the query defaults to
searching the `id` field: the removed records are exactly the (at most
one) record whose `id` equals the value. -/
theorem claim_C9 (cl : Collection) (ty : JsTy) (key val : Option JVal)
    (hty : IsIdTy ty) (hwf : WFColl cl ty) :
    removeWhere cl none none = .error .ambiguousRemoval ∧
    ((key ≠ none ∨ val ≠ none) →
      ∃ ms, allQ cl key val = .ok ms ∧
        removeWhere cl key val =
          .ok (ms, cl.filter (fun r => ! memRec r ms))) ∧
    (∀ v : JVal, ∃ ms, allQ cl (some v) none = .ok ms ∧
      removeWhere cl (some v) none =
        .ok (ms, cl.filter (fun r => ! memRec r ms)) ∧
      ((∃ r, ms = [r] ∧ r ∈ cl ∧ idOf r = some v) ∨
       (ms = [] ∧ ∀ r ∈ cl, idOf r ≠ some v))) := by
  refine ⟨rfl, ?_, ?_⟩
  · intro h
    obtain ⟨ms, hok, hsub⟩ := allQ_ok_sublist cl key val
    have hrm := removeModelsGo_sublist hty ms cl hwf hsub
    refine ⟨ms, hok, ?_⟩
    rw [removeWhere_args h, hok]
    exact hrm
  · intro v
    have hone : (some v : Option JVal) ≠ none ∨ (none : Option JVal) ≠ none :=
      Or.inl (fun h => Option.noConfusion h)
    rcases allQ_single_id hty hwf v with ⟨r, hok, hrmem, hrid⟩ | ⟨hok, hnotid⟩
    · have hsub : [r].Sublist cl := List.singleton_sublist.mpr hrmem
      have hrm := removeModelsGo_sublist hty [r] cl hwf hsub
      refine ⟨[r], hok, ?_, Or.inl ⟨r, rfl, hrmem, hrid⟩⟩
      rw [removeWhere_args hone, hok]
      exact hrm
    · have hrm := removeModelsGo_sublist hty [] cl hwf (List.nil_sublist cl)
      refine ⟨[], hok, ?_, Or.inr ⟨rfl, hnotid⟩⟩
      rw [removeWhere_args hone, hok]
      exact hrm

theorem claim_C9_witness :
    IsIdTy JsTy.numberTy ∧
    WFColl [[("id", JVal.num 1)]] JsTy.numberTy ∧
    (removeWhere [[("id", JVal.num 1)]] none none = .error .ambiguousRemoval ∧
     ((some (JVal.num 1) : Option JVal) ≠ none ∨
        (none : Option JVal) ≠ none →
       ∃ ms, allQ [[("id", JVal.num 1)]] (some (JVal.num 1)) none = .ok ms ∧
         removeWhere [[("id", JVal.num 1)]] (some (JVal.num 1)) none =
           .ok (ms, ([[("id", JVal.num 1)]] : Collection).filter
             (fun r => ! memRec r ms))) ∧
     (∀ v : JVal, ∃ ms,
        allQ [[("id", JVal.num 1)]] (some v) none = .ok ms ∧
        removeWhere [[("id", JVal.num 1)]] (some v) none =
          .ok (ms, ([[("id", JVal.num 1)]] : Collection).filter
            (fun r => ! memRec r ms)) ∧
        ((∃ r, ms = [r] ∧ r ∈ ([[("id", JVal.num 1)]] : Collection) ∧
            idOf r = some v) ∨
         (ms = [] ∧ ∀ r ∈ ([[("id", JVal.num 1)]] : Collection),
            idOf r ≠ some v)))) := by
  have hty : IsIdTy JsTy.numberTy := Or.inl rfl
  have hwf : WFColl [[("id", JVal.num 1)]] JsTy.numberTy := by
    refine ⟨List.pairwise_singleton _ _, ?_, ?_⟩
    · intro r hr
      rw [List.mem_singleton] at hr
      subst hr
      exact ⟨JVal.num 1, rfl, rfl⟩
    · intro r hr
      rw [List.mem_singleton] at hr
      subst hr
      simp [NodupKeys]
  exact ⟨hty, hwf, claim_C9 [[("id", JVal.num 1)]] JsTy.numberTy
    (some (JVal.num 1)) none hty hwf⟩

end Mochila
